import Mathlib

/-!
# A Lean model of the bitcask storage engine

This file is a shallow embedding of the Rust sources of the `bitcask`
repository (`src/engine.rs`, `src/files.rs`, `src/options.rs`) together
with proofs about the embedded operations.

Modelling conventions:
* machine integers (`u32`, `u64`, `usize`) are `Nat` with explicit
  `% 2 ^ w` truncation where the source can overflow;
* byte strings (`Vec<u8>`, `&[u8]`) are `List Nat` whose elements are
  byte values (the CRC routine reduces each byte `% 256`, mirroring `u8`);
* the filesystem directory is an association list from file names to file
  contents; `File` handles are represented by the name they address, and
  every read/write goes through the directory, which is faithful because
  all handles of the Rust program address files of this one directory and
  every access re-seeks to an absolute position;
* file names created by this program are `working_file_<id>` and
  `bitcask.lock`; they are modelled by the inductive `FName`, whose
  `contains("working_file")` test and numeric-suffix parse are the
  pattern matches `containsWF` and `parseFileId`;
* the wall clock (`SystemTime::now`) is passed in as an explicit `Nat`
  millisecond timestamp argument;
* `bincode` (standard configuration) varint encoding and decoding of the
  five `Entry` fields is modelled byte-exactly; the end-of-input
  condition (`UnexpectedEof`, which the recovery loop string-matches) is
  the `DR.eofr` result, any other decode failure is `DR.badr`;
* Rust panics (`unwrap` / `expect`) are the `Outcome.panicked` result,
  `anyhow` errors are `Outcome.err` with a constructor per distinct
  error site.
-/

/-- Names of files the program creates inside a bitcask directory:
`working_file_<id>` data segments and the `bitcask.lock` lock file. -/
inductive FName where
  | wfName : Nat → FName
  | lockName : FName
deriving DecidableEq

/-- `entry.file_name().contains("working_file")` specialised to the file
names the program itself creates. -/
def containsWF : FName → Bool
  | .wfName _ => true
  | .lockName => false

/-- `strip_prefix("working_file_")` + `parse::<u64>()` with `unwrap_or(0)`,
specialised to the names the program creates (`working_file_<id>` parses to
`id`; the lock file has no such prefix and falls back to `0`). -/
def parseFileId : FName → Nat
  | .wfName i => i
  | .lockName => 0

/-- `struct Options` from `src/options.rs`. -/
structure Options where
  read_write : Bool
  sync_on_put : Bool
  enable_compression : Bool
  max_data_size : Nat
deriving DecidableEq

/-- `Options::default()` from `src/options.rs`. -/
def Options.default : Options :=
  { read_write := false
    sync_on_put := false
    enable_compression := false
    max_data_size := 2 * 1024 * 1024 * 1024 }

/-- `struct Entry` from `src/engine.rs`: the on-disk record. -/
structure Entry where
  crc_checksum : Nat
  timestamp : Nat
  key : List Nat
  value : List Nat
  is_deleted : Bool
deriving DecidableEq

/-- `struct DirEntry` from `src/engine.rs`: the in-memory index record. -/
structure DirEntry where
  file_name : FName
  entry_pos : Nat
  timestamp : Nat
deriving DecidableEq

/-- `struct WorkingFile` from `src/files.rs`: the active segment.  The
open `File` handle is represented by the file's name; `size_b` is the
in-memory size counter. -/
structure WorkingFile where
  name : FName
  size_b : Nat
deriving DecidableEq

/-- The distinct error sites of the engine (`anyhow` errors in the source). -/
inductive BErr where
  /-- `anyhow!("Key-Value not found")` in `get` and `delete`. -/
  | keyNotFound
  /-- `context("Error Decoding Entry from file")` in `get` and `delete`. -/
  | decodeError
  /-- a real (non-EOF) decode error during recovery replay. -/
  | corruptDecode
  /-- `create_new` failure in `WorkingFile::open` (file already exists). -/
  | createFileFailed
  /-- `context("Failed to open data file containing this Key-Value")`. -/
  | openFileMissing
deriving DecidableEq

/-- Result of running a fallible piece of Rust: normal return, `Err`, or
a process panic. -/
inductive Outcome (α : Type) where
  | ok : α → Outcome α
  | err : BErr → Outcome α
  | panicked : String → Outcome α
deriving DecidableEq

/-- `expect` message of `try_lock` in `Bitcask::try_acquire_write_lock`. -/
def lockPanicMsg : String := "Bitcask directory is already open for writing by another process"

/-- panic message for the `unwrap` of `WorkingFile::open` inside the
`get_or_insert_with` closure of `Bitcask::put`. -/
def createPanicMsg : String := "cannot create working file"

/-- panic message for `self.working_file.as_ref().unwrap()` in
`Bitcask::get_file_containing_key` when there is no working file. -/
def noWorkingFileMsg : String := "unwrap of absent working file"

/-- Result of one `bincode` decode step: success with the remaining
bytes, end of input (`UnexpectedEof`), or any other decode error. -/
inductive DR (α : Type) where
  | okr : α → List Nat → DR α
  | eofr : DR α
  | badr : DR α
deriving DecidableEq

/-- `k` little-endian bytes of `n` (`n` is truncated to `k` bytes). -/
def natToLeBytes : Nat → Nat → List Nat
  | 0, _ => []
  | k + 1, n => n % 256 :: natToLeBytes k (n / 256)

/-- the value of a little-endian byte string. -/
def leVal : List Nat → Nat
  | [] => 0
  | b :: bs => b + 256 * leVal bs

/-- read exactly `k` bytes from the input, returning them and the rest;
`none` when fewer than `k` bytes remain (an `UnexpectedEof`). -/
def readBytes : Nat → List Nat → Option (List Nat × List Nat)
  | 0, l => some ([], l)
  | _ + 1, [] => none
  | k + 1, b :: l =>
    match readBytes k l with
    | none => none
    | some (xs, r) => some (b :: xs, r)

/-- `bincode` standard-configuration varint encoding of an unsigned
integer (identical byte function for `u32` and `u64` values). -/
def uintEncode (n : Nat) : List Nat :=
  if n < 251 then [n]
  else if n < 2 ^ 16 then 251 :: natToLeBytes 2 n
  else if n < 2 ^ 32 then 252 :: natToLeBytes 4 n
  else 253 :: natToLeBytes 8 n

/-- `bincode` varint decoding of a `u32`: markers `253`-`255` are out of
range for a `u32` and are a (non-EOF) decode error. -/
def decodeU32 : List Nat → DR Nat
  | [] => .eofr
  | b :: rest =>
    if b < 251 then .okr b rest
    else if b = 251 then
      match readBytes 2 rest with
      | none => .eofr
      | some (xs, r) => .okr (leVal xs) r
    else if b = 252 then
      match readBytes 4 rest with
      | none => .eofr
      | some (xs, r) => .okr (leVal xs) r
    else .badr

/-- `bincode` varint decoding of a `u64` (also used for the `usize`
lengths of `Vec<u8>` fields, which standard config encodes as `u64`). -/
def decodeU64 : List Nat → DR Nat
  | [] => .eofr
  | b :: rest =>
    if b < 251 then .okr b rest
    else if b = 251 then
      match readBytes 2 rest with
      | none => .eofr
      | some (xs, r) => .okr (leVal xs) r
    else if b = 252 then
      match readBytes 4 rest with
      | none => .eofr
      | some (xs, r) => .okr (leVal xs) r
    else if b = 253 then
      match readBytes 8 rest with
      | none => .eofr
      | some (xs, r) => .okr (leVal xs) r
    else .badr

/-- `bincode` decoding of a `bool`: one byte, `0` or `1`; any other byte
is a (non-EOF) decode error. -/
def decodeBool : List Nat → DR Bool
  | [] => .eofr
  | 0 :: r => .okr false r
  | 1 :: r => .okr true r
  | _ :: _ => .badr

/-- `bincode` decoding of a `Vec<u8>`: a `u64` length then that many raw
bytes. -/
def decodeByteVec (bs : List Nat) : DR (List Nat) :=
  match decodeU64 bs with
  | .eofr => .eofr
  | .badr => .badr
  | .okr len r =>
    match readBytes len r with
    | none => .eofr
    | some (xs, r2) => .okr xs r2

/-- `bincode` encoding of an `Entry` (derived `Encode`: the five fields
in declaration order; `Vec<u8>` is a `u64` length followed by the raw
bytes; `bool` is one byte). -/
def encodeEntry (e : Entry) : List Nat :=
  uintEncode e.crc_checksum ++ uintEncode e.timestamp ++
    uintEncode e.key.length ++ e.key ++
    uintEncode e.value.length ++ e.value ++
    [if e.is_deleted then 1 else 0]

/-- `bincode` decoding of an `Entry` (derived `Decode`: the five fields
in declaration order). -/
def decodeEntry (bs : List Nat) : DR Entry :=
  match decodeU32 bs with
  | .eofr => .eofr
  | .badr => .badr
  | .okr crc r1 =>
    match decodeU64 r1 with
    | .eofr => .eofr
    | .badr => .badr
    | .okr ts r2 =>
      match decodeByteVec r2 with
      | .eofr => .eofr
      | .badr => .badr
      | .okr key r3 =>
        match decodeByteVec r3 with
        | .eofr => .eofr
        | .badr => .badr
        | .okr val r4 =>
          match decodeBool r4 with
          | .eofr => .eofr
          | .badr => .badr
          | .okr d r5 => .okr ⟨crc, ts, key, val, d⟩ r5

/-- concatenated encoding of a list of records — the byte content of a
segment file holding exactly those records. -/
def encodeEntries : List Entry → List Nat
  | [] => []
  | e :: es => encodeEntry e ++ encodeEntries es

/-- starting byte offset of the `p`-th record of a segment holding the
records `L`. -/
def offsetAt (L : List Entry) (p : Nat) : Nat :=
  (encodeEntries (L.take p)).length

/-- seek to `pos` and overwrite with `bytes` (the in-place rewrite done
by `delete`; in every reachable use `pos + bytes.length` is within the
file). -/
def spliceAt (pos : Nat) (bytes content : List Nat) : List Nat :=
  content.take pos ++ bytes ++ content.drop (pos + bytes.length)

/-! ## CRC32 (`crc32fast::Hasher`)

`crc32fast` computes the standard IEEE CRC-32 (reflected polynomial
`0xEDB88320`, initial register `0xFFFFFFFF`, final xor `0xFFFFFFFF`),
incrementally over the chunks passed to `update`. -/

/-- `n` rounds of the bitwise CRC-32 step on register `c`. -/
def crcRounds : Nat → Nat → Nat
  | 0, c => c
  | n + 1, c => crcRounds n (if c % 2 = 1 then Nat.xor (c / 2) 0xEDB88320 else c / 2)

/-- absorb one byte into the CRC register (bytes are `u8`, hence `% 256`). -/
def crcByte (c b : Nat) : Nat := crcRounds 8 (Nat.xor c (b % 256))

/-- `Hasher::update`: absorb a chunk of bytes. -/
def crcUpdate (c : Nat) (bs : List Nat) : Nat := bs.foldl crcByte c

/-- the CRC register of `Hasher::new()`. -/
def crcInit : Nat := 0xFFFFFFFF

/-- `Hasher::finalize`. -/
def crcFinalize (c : Nat) : Nat := Nat.xor c 0xFFFFFFFF

/-- CRC-32 of a single byte string (the specification form
`CRC32(timestamp_le_bytes || key || value)` used by the spec). -/
def crc32Of (bs : List Nat) : Nat := crcFinalize (crcUpdate crcInit bs)

/-- `Entry::generate_checksum`: three `update` calls — the little-endian
timestamp bytes, the key, the value — then `finalize`.  The `deleted`
flag is not hashed. -/
def Entry.generate_checksum (timestamp : Nat) (key value : List Nat) : Nat :=
  crcFinalize (crcUpdate (crcUpdate (crcUpdate crcInit (natToLeBytes 8 timestamp)) key) value)

/-- `Entry::new`: fresh record with the current wall-clock timestamp
(truncated to `u64` by `as_millis() as u64`) and `is_deleted = false`. -/
def Entry.new (key value : List Nat) (timestamp : Nat) : Entry :=
  { crc_checksum := Entry.generate_checksum (timestamp % 2 ^ 64) key value
    timestamp := timestamp % 2 ^ 64
    key := key
    value := value
    is_deleted := false }

/-- `Entry::mark_deleted`. -/
def Entry.mark_deleted (e : Entry) : Entry := { e with is_deleted := true }

/-! ## The in-memory maps

`HashMap` is modelled as an association list whose `insert` replaces any
previous binding of the key, so the key column is duplicate-free in every
reachable state and iteration order is an artefact of the model (claims
only use lookup and membership, which are order-insensitive). -/

/-- the Key Directory: key bytes to `DirEntry`. -/
abbrev KeyDir := List (List Nat × DirEntry)

/-- `HashMap::get`. -/
def kdLookup (k : List Nat) : KeyDir → Option DirEntry
  | [] => none
  | (k', v) :: t => if k' = k then some v else kdLookup k t

/-- `HashMap::contains_key`. -/
def kdContains (k : List Nat) (m : KeyDir) : Bool := (kdLookup k m).isSome

/-- `HashMap::remove`. -/
def kdRemove (k : List Nat) (m : KeyDir) : KeyDir := m.filter (fun p => p.1 ≠ k)

/-- `HashMap::insert` (replacing any previous binding). -/
def kdInsert (k : List Nat) (v : DirEntry) (m : KeyDir) : KeyDir :=
  (k, v) :: kdRemove k m

/-- the filesystem directory: file name to file content. -/
abbrev FsDir := List (FName × List Nat)

/-- read a file's content. -/
def fsRead (d : FsDir) (n : FName) : Option (List Nat) :=
  match d with
  | [] => none
  | (n', c) :: t => if n' = n then some c else fsRead t n

/-- create or overwrite a file with the given content. -/
def fsWrite (d : FsDir) (n : FName) (c : List Nat) : FsDir :=
  (n, c) :: d.filter (fun p => p.1 ≠ n)

/-! ## The engine (`struct Bitcask`, `src/engine.rs`)

The `directory: PathBuf` field is implicit (all file names are relative
to the one store directory, which is the `dir` field here) and the
`_lock: Option<File>` handle carries no data. -/

/-- `struct Bitcask`: the engine state plus the backing directory. -/
structure Bitcask where
  dir : FsDir
  working_file : Option WorkingFile
  working_file_id : Option Nat
  key_dir : KeyDir
  options : Options
  files_pool : List FName
deriving DecidableEq

/-- `WorkingFile::open`: `create_new` the file `working_file_<id>` (an
error if it already exists), starting with size counter `0`. -/
def WorkingFile.openNew (d : FsDir) (id : Nat) : Outcome (FsDir × WorkingFile) :=
  match fsRead d (.wfName id) with
  | some _ => .err .createFileFailed
  | none => .ok (fsWrite d (.wfName id) [], ⟨.wfName id, 0⟩)

/-- `WorkingFile::get_working_file_id`: the number of directory entries
whose name contains `working_file`. -/
def WorkingFile.get_working_file_id (d : FsDir) : Nat :=
  (d.filter (fun p => containsWF p.1)).length

/-- one iteration body of the recovery loop of
`Bitcask::build_key_dir_map_and_files_pool`: tombstones remove the key
(a no-op when absent), live records insert/overwrite the `DirEntry`. -/
def replayEntry (fname : FName) (kd : KeyDir) (pos : Nat) (e : Entry) : KeyDir :=
  if e.is_deleted then
    if kdContains e.key kd then kdRemove e.key kd else kd
  else
    kdInsert e.key ⟨fname, pos, e.timestamp⟩ kd

/-- the recovery loop over one segment's bytes: decode records
sequentially from `pos`, stopping at `UnexpectedEof` (also the signature
of a truncated trailing record) and failing on any other decode error.
`fuel` bounds the iteration count; callers pass `bytes.length + 1`,
which suffices because every decoded record consumes at least one
byte. -/
def scanFile : Nat → FName → Nat → List Nat → KeyDir → Except BErr KeyDir
  | 0, _, _, _, kd => .ok kd
  | fuel + 1, name, pos, bytes, kd =>
    match decodeEntry bytes with
    | .eofr => .ok kd
    | .badr => .error .corruptDecode
    | .okr e r => scanFile fuel name (pos + (bytes.length - r.length)) r (replayEntry name kd pos e)

/-- the per-file loop of `build_key_dir_map_and_files_pool`: scan each
data file in order, threading the directory, and retain each scanned
file's handle in the files pool. -/
def buildLoop : List (FName × List Nat) → KeyDir → List FName → Except BErr (KeyDir × List FName)
  | [], kd, pool => .ok (kd, pool)
  | (name, bytes) :: rest, kd, pool =>
    match scanFile (bytes.length + 1) name 0 bytes kd with
    | .error e => .error e
    | .ok kd' => buildLoop rest kd' (pool ++ [name])

/-- `sort_by_key` on the parsed numeric file id (a stable sort; Rust's
stable `sort_by_key` and insertion sort agree on every input). -/
def sortDataFiles (l : List (FName × List Nat)) : List (FName × List Nat) :=
  List.insertionSort (fun a b => parseFileId a.1 ≤ parseFileId b.1) l

/-- `Bitcask::build_key_dir_map_and_files_pool`: list the files whose
name contains `working_file`, sort them by ascending parsed id, replay
each one sequentially from offset 0. -/
def build_key_dir_map_and_files_pool (d : FsDir) : Except BErr (KeyDir × List FName) :=
  buildLoop (sortDataFiles (d.filter (fun p => containsWF p.1))) [] []

/-- `Bitcask::try_acquire_write_lock`: create/open `bitcask.lock` (never
truncating an existing one) and `try_lock().expect(..)` — a non-blocking
attempt that panics when another process already holds the lock.
`lockHeld` says whether another process holds it. -/
def try_acquire_write_lock (d : FsDir) (lockHeld : Bool) : Outcome FsDir :=
  let d1 := match fsRead d .lockName with
    | some _ => d
    | none => fsWrite d .lockName []
  if lockHeld then .panicked lockPanicMsg else .ok d1

/-- `Bitcask::open`: rebuild the key directory and files pool, then, in
`read_write` mode, take the write lock and create the next working file
(id = count of existing `working_file` entries). -/
def Bitcask.openDb (d : FsDir) (lockHeld : Bool) (optsIn : Option Options) : Outcome Bitcask :=
  let options := optsIn.getD Options.default
  match build_key_dir_map_and_files_pool d with
  | .error e => .err e
  | .ok (key_dir, files_pool) =>
    if options.read_write then
      match try_acquire_write_lock d lockHeld with
      | .err e => .err e
      | .panicked m => .panicked m
      | .ok d1 =>
        let id := WorkingFile.get_working_file_id d1
        match WorkingFile.openNew d1 id with
        | .err _ => .err .createFileFailed
        | .panicked m => .panicked m
        | .ok (d2, wf) =>
          .ok ⟨d2, some wf, some id, key_dir, options, files_pool⟩
    else
      .ok ⟨d, none, none, key_dir, options, files_pool⟩

/-- `Bitcask::get_file_containing_key`: the working file's own handle
when the name matches (unconditionally `unwrap`ping the working file,
which panics on a read-only handle), otherwise the files pool, lazily
opening and caching the file on a miss.  The returned handle is the
validated name. -/
def Bitcask.get_file_containing_key (s : Bitcask) (file_name : FName) : Bitcask × Outcome FName :=
  match s.working_file with
  | none => (s, .panicked noWorkingFileMsg)
  | some wf =>
    if file_name = wf.name then (s, .ok file_name)
    else if file_name ∈ s.files_pool then (s, .ok file_name)
    else
      match fsRead s.dir file_name with
      | some _ => ({ s with files_pool := file_name :: s.files_pool }, .ok file_name)
      | none => (s, .err .openFileMissing)

/-- `Bitcask::get`: look up the `DirEntry`, resolve its file, seek to
`entry_pos` and decode one record, returning its value (the stored
checksum is not recomputed). -/
def Bitcask.get (s : Bitcask) (key : List Nat) : Bitcask × Outcome (List Nat) :=
  match kdLookup key s.key_dir with
  | none => (s, .err .keyNotFound)
  | some de =>
    match Bitcask.get_file_containing_key s de.file_name with
    | (s1, .err e) => (s1, .err e)
    | (s1, .panicked m) => (s1, .panicked m)
    | (s1, .ok name) =>
      match decodeEntry (((fsRead s1.dir name).getD []).drop de.entry_pos) with
      | .okr e _ => (s1, .ok e.value)
      | _ => (s1, .err .decodeError)

/-- the straight-line part of `Bitcask::put` after the working file is
in hand: append the new record (`WorkingFile::append` seeks to end of
file, writes, and bumps the in-memory size counter), insert the
`DirEntry` at offset `bytes_count() - bytes_written`, then rotate to
`working_file_<id+1>` when the tracked size exceeds `max_data_size`
(note the `?` on that create runs after the append and the index insert
have already happened, so a failed rotation leaves them in place with
only `working_file_id` bumped). -/
def Bitcask.putBody (s1 : Bitcask) (wf : WorkingFile) (key value : List Nat)
    (timestamp : Nat) : Bitcask × Outcome Unit :=
  let wf_bytes_count := wf.size_b
  let entry := Entry.new key value timestamp
  let bytes_written := (encodeEntry entry).length
  let content := (fsRead s1.dir wf.name).getD []
  let wf2 : WorkingFile := ⟨wf.name, wf.size_b + bytes_written⟩
  let s2 : Bitcask :=
    { s1 with
      dir := fsWrite s1.dir wf.name (content ++ encodeEntry entry)
      working_file := some wf2
      key_dir := kdInsert key ⟨wf.name, wf2.size_b - bytes_written, entry.timestamp⟩ s1.key_dir }
  if bytes_written + wf_bytes_count > s2.options.max_data_size then
    let newid := s2.working_file_id.getD 0 + 1
    let s3 := { s2 with working_file_id := some newid }
    match WorkingFile.openNew s3.dir newid with
    | .err e => (s3, .err e)
    | .panicked m => (s3, .panicked m)
    | .ok (d2, wfNew) => ({ s3 with dir := d2, working_file := some wfNew }, .ok ())
  else
    (s2, .ok ())

/-- `Bitcask::put`: `get_or_insert_with` the working file — on a handle
with no working file this creates `working_file_0` on the spot (read-only
handles included), panicking via `unwrap` when that file already exists —
then run the append/index/rotation body. -/
def Bitcask.put (s : Bitcask) (key value : List Nat) (timestamp : Nat) : Bitcask × Outcome Unit :=
  match s.working_file with
  | some wf => Bitcask.putBody s wf key value timestamp
  | none =>
    match WorkingFile.openNew s.dir 0 with
    | .err _ => (s, .panicked createPanicMsg)
    | .panicked m => (s, .panicked m)
    | .ok (d1, wf) =>
      Bitcask.putBody
        { s with dir := d1, working_file := some wf, working_file_id := some 0 }
        wf key value timestamp

/-- `Bitcask::delete`: look up the `DirEntry`, read the record back,
flip its `deleted` flag, rewrite it in place at the same offset, and
remove the key from the key directory. -/
def Bitcask.delete (s : Bitcask) (key : List Nat) : Bitcask × Outcome Unit :=
  match kdLookup key s.key_dir with
  | none => (s, .err .keyNotFound)
  | some de =>
    match Bitcask.get_file_containing_key s de.file_name with
    | (s1, .err e) => (s1, .err e)
    | (s1, .panicked m) => (s1, .panicked m)
    | (s1, .ok name) =>
      let content := (fsRead s1.dir name).getD []
      match decodeEntry (content.drop de.entry_pos) with
      | .okr e _ =>
        let e2 := Entry.mark_deleted e
        ({ s1 with
            dir := fsWrite s1.dir name (spliceAt de.entry_pos (encodeEntry e2) content)
            key_dir := kdRemove key s1.key_dir }, .ok ())
      | _ => (s1, .err .decodeError)

/-- `Bitcask::list_keys`: the key directory's keys (never touching disk;
the source wraps this in an always-`Ok` `Result`). -/
def Bitcask.list_keys (s : Bitcask) : List (List Nat) := s.key_dir.map (fun p => p.1)

/-! ## Well-formedness and the checksum invariant -/

/-- Field ranges imposed by the Rust types (`u32` checksum, `u64`
timestamp, `usize` lengths): every value representable in the program
satisfies this. -/
def WFEntry (e : Entry) : Prop :=
  e.crc_checksum < 2 ^ 32 ∧ e.timestamp < 2 ^ 64 ∧
    e.key.length < 2 ^ 64 ∧ e.value.length < 2 ^ 64

instance (e : Entry) : Decidable (WFEntry e) := by
  unfold WFEntry; infer_instance

/-- the checksum invariant: the stored checksum is the CRC the writer
computes over timestamp, key and value. -/
def checksumOk (e : Entry) : Prop :=
  e.crc_checksum = Entry.generate_checksum e.timestamp e.key e.value

instance (e : Entry) : Decidable (checksumOk e) := by
  unfold checksumOk; infer_instance

/-! ## Codec round-trip lemmas -/

theorem length_natToLeBytes : ∀ k n, (natToLeBytes k n).length = k
  | 0, _ => rfl
  | k + 1, n => by simp [natToLeBytes, length_natToLeBytes k]

theorem leVal_natToLeBytes : ∀ k n, leVal (natToLeBytes k n) = n % 256 ^ k
  | 0, n => by simp [natToLeBytes, leVal, Nat.mod_one]
  | k + 1, n => by
    rw [natToLeBytes, leVal, leVal_natToLeBytes k, pow_succ']
    exact Nat.mod_mul.symm

theorem readBytes_exact : ∀ (xs r : List Nat), readBytes xs.length (xs ++ r) = some (xs, r)
  | [], _ => rfl
  | x :: xs, r => by simp [readBytes, readBytes_exact xs r]

theorem readBytes_short : ∀ (k : Nat) (l : List Nat), l.length < k → readBytes k l = none
  | 0, _, h => absurd h (Nat.not_lt_zero _)
  | _ + 1, [], _ => rfl
  | k + 1, _ :: l, h => by
    simp only [readBytes]
    rw [readBytes_short k l (by simpa using h)]

theorem readBytes_le (k : Nat) (n : Nat) (rest : List Nat) :
    readBytes k (natToLeBytes k n ++ rest) = some (natToLeBytes k n, rest) := by
  have h := readBytes_exact (natToLeBytes k n) rest
  rwa [length_natToLeBytes] at h

theorem leVal_le_of_lt (k : Nat) (n : Nat) (h : n < 256 ^ k) :
    leVal (natToLeBytes k n) = n := by
  rw [leVal_natToLeBytes]; exact Nat.mod_eq_of_lt h

theorem decodeU32_encode (n : Nat) (rest : List Nat) (h : n < 2 ^ 32) :
    decodeU32 (uintEncode n ++ rest) = .okr n rest := by
  by_cases h1 : n < 251
  · rw [uintEncode, if_pos h1]
    simp [decodeU32, h1]
  · by_cases h2 : n < 2 ^ 16
    · rw [uintEncode, if_neg h1, if_pos h2, List.cons_append]
      simp [decodeU32, readBytes_le, leVal_le_of_lt 2 n (by omega)]
    · rw [uintEncode, if_neg h1, if_neg h2, if_pos h, List.cons_append]
      simp [decodeU32, readBytes_le, leVal_le_of_lt 4 n (by omega)]

theorem decodeU64_encode (n : Nat) (rest : List Nat) (h : n < 2 ^ 64) :
    decodeU64 (uintEncode n ++ rest) = .okr n rest := by
  by_cases h1 : n < 251
  · rw [uintEncode, if_pos h1]
    simp [decodeU64, h1]
  · by_cases h2 : n < 2 ^ 16
    · rw [uintEncode, if_neg h1, if_pos h2, List.cons_append]
      simp [decodeU64, readBytes_le, leVal_le_of_lt 2 n (by omega)]
    · by_cases h3 : n < 2 ^ 32
      · rw [uintEncode, if_neg h1, if_neg h2, if_pos h3, List.cons_append]
        simp [decodeU64, readBytes_le, leVal_le_of_lt 4 n (by omega)]
      · rw [uintEncode, if_neg h1, if_neg h2, if_neg h3, List.cons_append]
        simp [decodeU64, readBytes_le, leVal_le_of_lt 8 n (by omega)]

theorem decodeByteVec_encode (xs rest : List Nat) (h : xs.length < 2 ^ 64) :
    decodeByteVec (uintEncode xs.length ++ (xs ++ rest)) = .okr xs rest := by
  unfold decodeByteVec
  rw [decodeU64_encode _ _ h]
  simp [readBytes_exact]

theorem decodeBool_encode (b : Bool) (rest : List Nat) :
    decodeBool ((if b then 1 else 0) :: rest) = .okr b rest := by
  cases b <;> rfl

theorem decodeEntry_encode (e : Entry) (rest : List Nat) (h : WFEntry e) :
    decodeEntry (encodeEntry e ++ rest) = .okr e rest := by
  obtain ⟨h1, h2, h3, h4⟩ := h
  simp only [encodeEntry, List.append_assoc, List.singleton_append]
  simp only [decodeEntry, decodeU32_encode _ _ h1, decodeU64_encode _ _ h2,
    decodeByteVec_encode _ _ h3, decodeByteVec_encode _ _ h4, decodeBool_encode]

/-! ## Truncation lemmas: a strict prefix of a record's encoding always
decodes to `UnexpectedEof`, never to a record and never to a hard error. -/

theorem take_append_lt {α : Type} {a r : List α} {m : Nat} (h : m < a.length) :
    (a ++ r).take m = a.take m := by
  rw [List.take_append_eq_append_take, Nat.sub_eq_zero_of_le h.le]
  simp

theorem take_append_ge {α : Type} {a r : List α} {m : Nat} (h : a.length ≤ m) :
    (a ++ r).take m = a ++ r.take (m - a.length) := by
  rw [List.take_append_eq_append_take, List.take_of_length_le h]

theorem decodeU32_trunc (n : Nat) (hn : n < 2 ^ 32) (m : Nat)
    (hm : m < (uintEncode n).length) :
    decodeU32 ((uintEncode n).take m) = .eofr := by
  by_cases h1 : n < 251
  · rw [uintEncode, if_pos h1] at hm ⊢
    have hz : m = 0 := by simpa using hm
    subst hz; rfl
  · by_cases h2 : n < 2 ^ 16
    · rw [uintEncode, if_neg h1, if_pos h2] at hm ⊢
      rcases m with _ | j
      · rfl
      · rw [List.take_succ_cons]
        simp only [List.length_cons, length_natToLeBytes] at hm
        have hs : readBytes 2 ((natToLeBytes 2 n).take j) = none :=
          readBytes_short _ _ (by rw [List.length_take, length_natToLeBytes]; omega)
        simp [decodeU32, hs]
    · rw [uintEncode, if_neg h1, if_neg h2, if_pos hn] at hm ⊢
      rcases m with _ | j
      · rfl
      · rw [List.take_succ_cons]
        simp only [List.length_cons, length_natToLeBytes] at hm
        have hs : readBytes 4 ((natToLeBytes 4 n).take j) = none :=
          readBytes_short _ _ (by rw [List.length_take, length_natToLeBytes]; omega)
        simp [decodeU32, hs]

theorem decodeU64_trunc (n : Nat) (m : Nat) (hm : m < (uintEncode n).length) :
    decodeU64 ((uintEncode n).take m) = .eofr := by
  by_cases h1 : n < 251
  · rw [uintEncode, if_pos h1] at hm ⊢
    have hz : m = 0 := by simpa using hm
    subst hz; rfl
  · by_cases h2 : n < 2 ^ 16
    · rw [uintEncode, if_neg h1, if_pos h2] at hm ⊢
      rcases m with _ | j
      · rfl
      · rw [List.take_succ_cons]
        simp only [List.length_cons, length_natToLeBytes] at hm
        have hs : readBytes 2 ((natToLeBytes 2 n).take j) = none :=
          readBytes_short _ _ (by rw [List.length_take, length_natToLeBytes]; omega)
        simp [decodeU64, hs]
    · by_cases h3 : n < 2 ^ 32
      · rw [uintEncode, if_neg h1, if_neg h2, if_pos h3] at hm ⊢
        rcases m with _ | j
        · rfl
        · rw [List.take_succ_cons]
          simp only [List.length_cons, length_natToLeBytes] at hm
          have hs : readBytes 4 ((natToLeBytes 4 n).take j) = none :=
            readBytes_short _ _ (by rw [List.length_take, length_natToLeBytes]; omega)
          simp [decodeU64, hs]
      · rw [uintEncode, if_neg h1, if_neg h2, if_neg h3] at hm ⊢
        rcases m with _ | j
        · rfl
        · rw [List.take_succ_cons]
          simp only [List.length_cons, length_natToLeBytes] at hm
          have hs : readBytes 8 ((natToLeBytes 8 n).take j) = none :=
            readBytes_short _ _ (by rw [List.length_take, length_natToLeBytes]; omega)
          simp [decodeU64, hs]

theorem decodeByteVec_trunc_len (xs : List Nat) (m : Nat)
    (hm : m < (uintEncode xs.length).length) :
    decodeByteVec ((uintEncode xs.length).take m) = .eofr := by
  unfold decodeByteVec
  rw [decodeU64_trunc _ _ hm]

theorem decodeByteVec_trunc_body (xs tail : List Nat) (h : xs.length < 2 ^ 64) (m : Nat)
    (hm : m < xs.length) :
    decodeByteVec (uintEncode xs.length ++ (xs ++ tail).take m) = .eofr := by
  unfold decodeByteVec
  rw [decodeU64_encode _ _ h, take_append_lt hm]
  have hs : readBytes xs.length (xs.take m) = none :=
    readBytes_short _ _ (by rw [List.length_take]; omega)
  simp [hs]

theorem decodeEntry_trunc (e : Entry) (h : WFEntry e) (m : Nat)
    (hm : m < (encodeEntry e).length) :
    decodeEntry ((encodeEntry e).take m) = .eofr := by
  obtain ⟨h1, h2, h3, h4⟩ := h
  simp only [encodeEntry, List.append_assoc] at hm ⊢
  simp only [List.length_append, List.length_singleton] at hm
  rcases Nat.lt_or_ge m (uintEncode e.crc_checksum).length with hc1 | hc1
  · rw [take_append_lt hc1]
    simp [decodeEntry, decodeU32_trunc _ h1 _ hc1]
  · rw [take_append_ge hc1]
    simp only [decodeEntry, decodeU32_encode _ _ h1]
    rcases Nat.lt_or_ge (m - (uintEncode e.crc_checksum).length)
        (uintEncode e.timestamp).length with hc2 | hc2
    · rw [take_append_lt hc2]
      simp [decodeU64_trunc _ _ hc2]
    · rw [take_append_ge hc2]
      simp only [decodeU64_encode _ _ h2]
      rcases Nat.lt_or_ge (m - (uintEncode e.crc_checksum).length -
          (uintEncode e.timestamp).length) (uintEncode e.key.length).length with hc3 | hc3
      · rw [take_append_lt hc3]
        simp [decodeByteVec_trunc_len _ _ hc3]
      · rw [take_append_ge hc3]
        rcases Nat.lt_or_ge (m - (uintEncode e.crc_checksum).length -
            (uintEncode e.timestamp).length - (uintEncode e.key.length).length)
            e.key.length with hc4 | hc4
        · simp [decodeByteVec_trunc_body _ _ h3 _ hc4]
        · rw [take_append_ge hc4]
          simp only [decodeByteVec_encode _ _ h3]
          rcases Nat.lt_or_ge (m - (uintEncode e.crc_checksum).length -
              (uintEncode e.timestamp).length - (uintEncode e.key.length).length -
              e.key.length) (uintEncode e.value.length).length with hc5 | hc5
          · rw [take_append_lt hc5]
            simp [decodeByteVec_trunc_len _ _ hc5]
          · rw [take_append_ge hc5]
            rcases Nat.lt_or_ge (m - (uintEncode e.crc_checksum).length -
                (uintEncode e.timestamp).length - (uintEncode e.key.length).length -
                e.key.length - (uintEncode e.value.length).length)
                e.value.length with hc6 | hc6
            · simp [decodeByteVec_trunc_body _ _ h4 _ hc6]
            · rw [take_append_ge hc6]
              simp only [decodeByteVec_encode _ _ h4]
              have hz : m - (uintEncode e.crc_checksum).length -
                  (uintEncode e.timestamp).length - (uintEncode e.key.length).length -
                  e.key.length - (uintEncode e.value.length).length - e.value.length = 0 := by
                omega
              rw [hz]
              rfl

/-! ## Segment content lemmas -/

theorem encodeEntries_append (a b : List Entry) :
    encodeEntries (a ++ b) = encodeEntries a ++ encodeEntries b := by
  induction a with
  | nil => rfl
  | cons e es ih => simp [encodeEntries, ih]

theorem length_encodeEntry_pos (e : Entry) : 0 < (encodeEntry e).length := by
  simp only [encodeEntry, List.length_append, List.length_singleton]
  omega

theorem length_le_length_encodeEntries :
    ∀ recs : List Entry, recs.length ≤ (encodeEntries recs).length
  | [] => le_refl _
  | e :: es => by
    simp only [List.length_cons, encodeEntries, List.length_append]
    have h1 := length_encodeEntry_pos e
    have h2 := length_le_length_encodeEntries es
    omega

theorem length_encodeEntry_mark_deleted (e : Entry) :
    (encodeEntry (Entry.mark_deleted e)).length = (encodeEntry e).length := by
  simp [encodeEntry, Entry.mark_deleted]

theorem set_eq_take_append : ∀ (L : List Entry) (p : Nat), p < L.length → ∀ e2 : Entry,
    L.set p e2 = L.take p ++ e2 :: L.drop (p + 1)
  | [], _, hp, _ => absurd hp (by simp)
  | _ :: _, 0, _, _ => by simp
  | x :: xs, p + 1, hp, e2 => by
    simp only [List.set, List.take, List.drop, List.cons_append, List.cons.injEq, true_and]
    exact set_eq_take_append xs p (by simpa using hp) e2

theorem encodeEntries_split (L : List Entry) (p : Nat) (hp : p < L.length) :
    encodeEntries L = encodeEntries (L.take p) ++
      (encodeEntry (L.get ⟨p, hp⟩) ++ encodeEntries (L.drop (p + 1))) := by
  conv_lhs => rw [← List.take_append_drop p L]
  rw [encodeEntries_append, List.drop_eq_getElem_cons hp]
  rfl

theorem drop_offsetAt (L : List Entry) (p : Nat) (hp : p < L.length) :
    (encodeEntries L).drop (offsetAt L p) =
      encodeEntry (L.get ⟨p, hp⟩) ++ encodeEntries (L.drop (p + 1)) := by
  conv_lhs => rw [encodeEntries_split L p hp]
  simp only [offsetAt]
  exact List.drop_left _ _

theorem length_encodeEntries_set : ∀ (L : List Entry) (p : Nat) (e2 : Entry),
    (∀ hp : p < L.length, (encodeEntry e2).length = (encodeEntry (L.get ⟨p, hp⟩)).length) →
    (encodeEntries (L.set p e2)).length = (encodeEntries L).length
  | [], _, _, _ => rfl
  | x :: xs, 0, e2, h => by
    simp only [List.set, encodeEntries, List.length_append]
    rw [h (by simp)]
    rfl
  | x :: xs, p + 1, e2, h => by
    simp only [List.set, encodeEntries, List.length_append]
    rw [length_encodeEntries_set xs p e2 (fun hp => h (Nat.succ_lt_succ hp))]

theorem offsetAt_zero (L : List Entry) : offsetAt L 0 = 0 := rfl

theorem offsetAt_cons (y : Entry) (ys : List Entry) (q : Nat) :
    offsetAt (y :: ys) (q + 1) = (encodeEntry y).length + offsetAt ys q := by
  simp [offsetAt, List.take, encodeEntries, List.length_append]

theorem offsetAt_set : ∀ (L : List Entry) (p q : Nat) (e2 : Entry),
    (∀ hp : p < L.length, (encodeEntry e2).length = (encodeEntry (L.get ⟨p, hp⟩)).length) →
    offsetAt (L.set p e2) q = offsetAt L q
  | [], _, _, _, _ => rfl
  | x :: xs, 0, 0, e2, _ => rfl
  | x :: xs, 0, q + 1, e2, h => by
    simp only [List.set, offsetAt_cons]
    rw [h (by simp)]
    rfl
  | x :: xs, p + 1, 0, e2, h => rfl
  | x :: xs, p + 1, q + 1, e2, h => by
    simp only [List.set, offsetAt_cons]
    rw [offsetAt_set xs p q e2 (fun hp => h (Nat.succ_lt_succ hp))]

theorem spliceAt_middle (pre mid post bytes : List Nat) (h : bytes.length = mid.length) :
    spliceAt pre.length bytes (pre ++ (mid ++ post)) = pre ++ (bytes ++ post) := by
  unfold spliceAt
  rw [List.take_left, h]
  rw [show pre.length + mid.length = (pre ++ mid).length by rw [List.length_append]]
  rw [← List.append_assoc, List.drop_left, List.append_assoc]

theorem spliceAt_set (L : List Entry) (p : Nat) (hp : p < L.length) (e2 : Entry)
    (hlen : (encodeEntry e2).length = (encodeEntry (L.get ⟨p, hp⟩)).length) :
    spliceAt (offsetAt L p) (encodeEntry e2) (encodeEntries L) = encodeEntries (L.set p e2) := by
  calc spliceAt (offsetAt L p) (encodeEntry e2) (encodeEntries L)
      = spliceAt (encodeEntries (L.take p)).length (encodeEntry e2)
          (encodeEntries (L.take p) ++
            (encodeEntry (L.get ⟨p, hp⟩) ++ encodeEntries (L.drop (p + 1)))) := by
        rw [← encodeEntries_split L p hp]; rfl
    _ = encodeEntries (L.take p) ++ (encodeEntry e2 ++ encodeEntries (L.drop (p + 1))) :=
        spliceAt_middle _ _ _ _ hlen
    _ = encodeEntries (L.set p e2) := by
        rw [set_eq_take_append L p hp e2, encodeEntries_append]; rfl

theorem encodeEntries_inj : ∀ (a b : List Entry), (∀ x ∈ a, WFEntry x) → (∀ x ∈ b, WFEntry x) →
    encodeEntries a = encodeEntries b → a = b
  | [], [], _, _, _ => rfl
  | [], f :: fs, _, _, h => by
    exfalso
    have hp := length_encodeEntry_pos f
    have hl := congrArg List.length h
    simp only [encodeEntries, List.length_append, List.length_nil] at hl
    omega
  | e :: es, [], _, _, h => by
    exfalso
    have hp := length_encodeEntry_pos e
    have hl := congrArg List.length h
    simp only [encodeEntries, List.length_append, List.length_nil] at hl
    omega
  | e :: es, f :: fs, ha, hb, h => by
    simp only [encodeEntries] at h
    have h1 := decodeEntry_encode e (encodeEntries es) (ha e (by simp))
    have h2 := decodeEntry_encode f (encodeEntries fs) (hb f (by simp))
    rw [h, h2] at h1
    injection h1 with hef htail
    subst hef
    rw [encodeEntries_inj es fs (fun x hx => ha x (by simp [hx]))
      (fun x hx => hb x (by simp [hx])) htail.symm]

/-! ## Key-directory map lemmas -/

theorem kdLookup_kdRemove_self (k : List Nat) (m : KeyDir) :
    kdLookup k (kdRemove k m) = none := by
  induction m with
  | nil => rfl
  | cons p t ih =>
    simp only [kdRemove, List.filter_cons] at ih ⊢
    by_cases hp : p.1 = k
    · simpa [hp] using ih
    · simpa [kdLookup, hp] using ih

theorem kdLookup_kdRemove_ne (k k' : List Nat) (m : KeyDir) (h : k' ≠ k) :
    kdLookup k (kdRemove k' m) = kdLookup k m := by
  induction m with
  | nil => rfl
  | cons p t ih =>
    simp only [kdRemove, List.filter_cons] at ih ⊢
    by_cases hp : p.1 = k'
    · simpa [hp, kdLookup, h] using ih
    · by_cases hk : p.1 = k
      · have hkk : ¬k = k' := fun hh => hp (hk.trans hh)
        simp [kdLookup, hk, hkk]
      · simpa [hp, kdLookup, hk] using ih

theorem kdLookup_kdInsert_self (k : List Nat) (v : DirEntry) (m : KeyDir) :
    kdLookup k (kdInsert k v m) = some v := by
  simp [kdInsert, kdLookup]

theorem kdLookup_kdInsert_ne (k k' : List Nat) (v : DirEntry) (m : KeyDir) (h : k' ≠ k) :
    kdLookup k (kdInsert k' v m) = kdLookup k m := by
  simp only [kdInsert, kdLookup, h, if_false]
  exact kdLookup_kdRemove_ne k k' m h

/-! ## Recovery characterization -/

/-- the records of a segment paired with their starting byte offsets,
the first record starting at `base`. -/
def withOffsets (base : Nat) : List Entry → List (Nat × Entry)
  | [] => []
  | e :: es => (base, e) :: withOffsets (base + (encodeEntry e).length) es

/-- one file's records tagged with the file's name. -/
def tagFile (p : FName × List Entry) : List (FName × Nat × Entry) :=
  (withOffsets 0 p.2).map (fun q => (p.1, q.1, q.2))

/-- all records of a list of files, in file order then offset order. -/
def flatRecs : List (FName × List Entry) → List (FName × Nat × Entry)
  | [] => []
  | p :: rest => tagFile p ++ flatRecs rest

/-- replay one tagged record into the key directory. -/
def replayTagged (kd : KeyDir) (r : FName × Nat × Entry) : KeyDir :=
  replayEntry r.1 kd r.2.1 r.2.2

/-- the last record (in replay order) whose key is `k`. -/
def findLastRec (k : List Nat) : List (FName × Nat × Entry) → Option (FName × Nat × Entry)
  | [] => none
  | r :: rest =>
    match findLastRec k rest with
    | some x => some x
    | none => if r.2.2.key = k then some r else none

/-- the key directory demanded by the spec: `k` maps to the location and
timestamp of its most recent record when that record is live, and to
nothing otherwise. -/
def dirSpecLookup (k : List Nat) (rs : List (FName × Nat × Entry)) : Option DirEntry :=
  match findLastRec k rs with
  | none => none
  | some (f, p, e) => if e.is_deleted then none else some ⟨f, p, e.timestamp⟩

theorem scanFile_sem : ∀ (recs : List Entry) (tail : List Nat) (fuel pos : Nat)
    (name : FName) (kd : KeyDir), (∀ x ∈ recs, WFEntry x) → decodeEntry tail = .eofr →
    recs.length < fuel →
    scanFile fuel name pos (encodeEntries recs ++ tail) kd =
      .ok ((withOffsets pos recs).foldl (fun k2 pe => replayEntry name k2 pe.1 pe.2) kd)
  | [], tail, fuel, pos, name, kd, _, htail, hfuel => by
    cases fuel with
    | zero => omega
    | succ f =>
      simp only [encodeEntries, List.nil_append, scanFile, htail, withOffsets, List.foldl_nil]
  | e :: es, tail, fuel, pos, name, kd, hwf, htail, hfuel => by
    cases fuel with
    | zero => omega
    | succ f =>
      have hdec : decodeEntry (encodeEntry e ++ (encodeEntries es ++ tail)) =
          .okr e (encodeEntries es ++ tail) := decodeEntry_encode e _ (hwf e (by simp))
      have hlen : (encodeEntry e ++ (encodeEntries es ++ tail)).length -
          (encodeEntries es ++ tail).length = (encodeEntry e).length := by
        simp [List.length_append]
      simp only [encodeEntries, List.append_assoc, scanFile, hdec, hlen, withOffsets,
        List.foldl_cons]
      exact scanFile_sem es tail f (pos + (encodeEntry e).length) name _
        (fun x hx => hwf x (by simp [hx])) htail (by simpa using hfuel)

theorem buildLoop_sem : ∀ (fl : List (FName × List Entry)) (kd : KeyDir) (pool : List FName),
    (∀ p ∈ fl, ∀ x ∈ p.2, WFEntry x) →
    buildLoop (fl.map (fun p => (p.1, encodeEntries p.2))) kd pool =
      .ok ((flatRecs fl).foldl replayTagged kd, pool ++ fl.map (fun p => p.1))
  | [], kd, pool, _ => by simp [buildLoop, flatRecs]
  | (name, recs) :: rest, kd, pool, hwf => by
    have hscan : scanFile ((encodeEntries recs).length + 1) name 0 (encodeEntries recs) kd =
        .ok ((withOffsets 0 recs).foldl (fun k2 pe => replayEntry name k2 pe.1 pe.2) kd) := by
      have h := scanFile_sem recs [] ((encodeEntries recs).length + 1) 0 name kd
        (fun x hx => hwf (name, recs) (by simp) x hx) rfl
        (Nat.lt_succ_of_le (length_le_length_encodeEntries recs))
      simpa using h
    simp only [List.map_cons, buildLoop, hscan]
    rw [buildLoop_sem rest _ _ (fun p hp => hwf p (by simp [hp]))]
    simp only [flatRecs, tagFile, List.foldl_append, List.foldl_map, replayTagged,
      List.map_cons, List.append_assoc, List.singleton_append]

theorem foldl_replay_lookup : ∀ (rs : List (FName × Nat × Entry)) (kd0 : KeyDir) (k : List Nat),
    kdLookup k (rs.foldl replayTagged kd0) =
      match findLastRec k rs with
      | none => kdLookup k kd0
      | some (f, p, e) => if e.is_deleted then none else some ⟨f, p, e.timestamp⟩
  | [], kd0, k => rfl
  | r :: rest, kd0, k => by
    rw [List.foldl_cons, foldl_replay_lookup rest _ k]
    rcases hfind : findLastRec k rest with _ | x
    · simp only [findLastRec, hfind]
      by_cases hk : r.2.2.key = k
      · rw [if_pos hk]
        unfold replayTagged replayEntry
        by_cases hd : r.2.2.is_deleted
        · simp only [hd, if_true]
          by_cases hc : kdContains r.2.2.key kd0
          · simp only [hc, if_true]
            rw [hk]
            exact kdLookup_kdRemove_self k kd0
          · simp only [Bool.not_eq_true] at hc
            simp only [hc, Bool.false_eq_true, if_false]
            unfold kdContains at hc
            rw [hk] at hc
            cases hkl : kdLookup k kd0 with
            | none => rfl
            | some v => rw [hkl] at hc; simp at hc
        · simp only [hd, if_false]
          rw [hk]
          exact kdLookup_kdInsert_self k _ kd0
      · rw [if_neg hk]
        unfold replayTagged replayEntry
        by_cases hd : r.2.2.is_deleted
        · simp only [hd, if_true]
          by_cases hc : kdContains r.2.2.key kd0
          · simp only [hc, if_true]
            exact kdLookup_kdRemove_ne k _ kd0 hk
          · simp only [Bool.not_eq_true] at hc
            simp [hc]
        · simp only [hd, if_false]
          exact kdLookup_kdInsert_ne k _ _ kd0 hk
    · simp only [findLastRec, hfind]

/-! ## Replay order: ascending numeric file id -/

instance : IsTotal (FName × List Nat) (fun a b => parseFileId a.1 ≤ parseFileId b.1) :=
  ⟨fun _ _ => Nat.le_total _ _⟩

instance : IsTrans (FName × List Nat) (fun a b => parseFileId a.1 ≤ parseFileId b.1) :=
  ⟨fun _ _ _ => Nat.le_trans⟩

instance : IsTotal (Nat × List Entry) (fun a b => a.1 ≤ b.1) :=
  ⟨fun _ _ => Nat.le_total _ _⟩

instance : IsTrans (Nat × List Entry) (fun a b => a.1 ≤ b.1) :=
  ⟨fun _ _ _ => Nat.le_trans⟩

/-- a directory of segment files given at the record level: file
`working_file_<p.1>` holds the encoded records `p.2`. -/
def mkSegDir (files : List (Nat × List Entry)) : FsDir :=
  files.map (fun p => (FName.wfName p.1, encodeEntries p.2))

/-- the same directory with contents kept at the record level. -/
def segFiles (files : List (Nat × List Entry)) : List (FName × List Entry) :=
  files.map (fun p => (FName.wfName p.1, p.2))

/-- the record-level image of the source's `sort_by_key` on parsed file
ids (both are stable sorts, so they agree on every input). -/
def sortNatFiles (files : List (Nat × List Entry)) : List (Nat × List Entry) :=
  List.insertionSort (fun a b => a.1 ≤ b.1) files

/-- all records of the directory in replay order: segments in ascending
id order, records of one segment in ascending offset order. -/
def orderedRecords (files : List (Nat × List Entry)) : List (FName × Nat × Entry) :=
  flatRecs (segFiles (sortNatFiles files))

theorem mkSegDir_eq_map (files : List (Nat × List Entry)) :
    mkSegDir files = (segFiles files).map (fun p => (p.1, encodeEntries p.2)) := by
  simp [mkSegDir, segFiles, List.map_map]

theorem filter_mkSegDir (files : List (Nat × List Entry)) :
    (mkSegDir files).filter (fun p => containsWF p.1) = mkSegDir files := by
  rw [List.filter_eq_self]
  intro p hp
  simp only [mkSegDir, List.mem_map] at hp
  obtain ⟨q, _, rfl⟩ := hp
  rfl

theorem sortDataFiles_mkSegDir (files : List (Nat × List Entry)) :
    sortDataFiles (mkSegDir files) = mkSegDir (sortNatFiles files) := by
  unfold sortDataFiles sortNatFiles mkSegDir
  exact (List.map_insertionSort (fun a b : Nat × List Entry => a.1 ≤ b.1)
    (fun a b : FName × List Nat => parseFileId a.1 ≤ parseFileId b.1)
    (fun p => (FName.wfName p.1, encodeEntries p.2)) files (fun a _ b _ => Iff.rfl)).symm

/-- C3: for every directory of segment files, the recovery rebuild
replays segments strictly in ascending numeric-id order and processes
each segment's records sequentially from offset 0; a tombstone removes
its key (a no-op when absent) and any other record inserts/overwrites
the key's `DirEntry` with that segment's filename, the record's starting
byte offset, and its timestamp — so the resulting Key Directory maps
exactly those keys whose most recent record across all segments is
live, each to the location of that record. -/
theorem C3_recovery_rebuild (files : List (Nat × List Entry))
    (hwf : ∀ p ∈ files, ∀ x ∈ p.2, WFEntry x) :
    (sortNatFiles files).Perm files ∧
    ((sortNatFiles files).map (fun p => p.1)).Sorted (· ≤ ·) ∧
    ∃ kd pool, build_key_dir_map_and_files_pool (mkSegDir files) = .ok (kd, pool) ∧
      ∀ k, kdLookup k kd = dirSpecLookup k (orderedRecords files) := by
  refine ⟨List.perm_insertionSort _ files, ?_, ?_⟩
  · have hs := List.sorted_insertionSort (fun a b : Nat × List Entry => a.1 ≤ b.1) files
    exact List.pairwise_map.mpr hs
  · have hwf2 : ∀ p ∈ segFiles (sortNatFiles files), ∀ x ∈ p.2, WFEntry x := by
      intro p hp x hx
      simp only [segFiles, List.mem_map] at hp
      obtain ⟨q, hq, rfl⟩ := hp
      exact hwf q ((List.perm_insertionSort _ files).mem_iff.mp hq) x hx
    refine ⟨(flatRecs (segFiles (sortNatFiles files))).foldl replayTagged [],
      [] ++ (segFiles (sortNatFiles files)).map (fun p => p.1), ?_, ?_⟩
    · unfold build_key_dir_map_and_files_pool
      rw [filter_mkSegDir, sortDataFiles_mkSegDir, mkSegDir_eq_map]
      exact buildLoop_sem _ [] [] hwf2
    · intro k
      rw [foldl_replay_lookup]
      unfold dirSpecLookup orderedRecords
      cases findLastRec k (flatRecs (segFiles (sortNatFiles files))) <;> rfl

/-- a small live record used by concrete test stores. -/
def eW1 : Entry := ⟨5, 3, [1], [2], false⟩

/-- a second small live record used by concrete test stores. -/
def eW2 : Entry := ⟨6, 4, [1], [7], false⟩

/-- witness for C3 at the concrete two-segment directory where segment 0
holds one record for key `[1]` and segment 1 a newer one. -/
theorem C3_recovery_rebuild_witness :
    (∀ p ∈ [(0, [eW1]), (1, [eW2])], ∀ x ∈ p.2, WFEntry x) ∧
    ((sortNatFiles [(0, [eW1]), (1, [eW2])]).Perm [(0, [eW1]), (1, [eW2])] ∧
      ((sortNatFiles [(0, [eW1]), (1, [eW2])]).map (fun p => p.1)).Sorted (· ≤ ·) ∧
      ∃ kd pool,
        build_key_dir_map_and_files_pool (mkSegDir [(0, [eW1]), (1, [eW2])]) = .ok (kd, pool) ∧
        ∀ k, kdLookup k kd = dirSpecLookup k (orderedRecords [(0, [eW1]), (1, [eW2])])) :=
  ⟨by decide, C3_recovery_rebuild [(0, [eW1]), (1, [eW2])] (by decide)⟩

/-! ## Filesystem map lemmas -/

theorem fsRead_fsWrite_self (d : FsDir) (n : FName) (c : List Nat) :
    fsRead (fsWrite d n c) n = some c := by
  simp [fsWrite, fsRead]

theorem fsRead_filter_ne (d : FsDir) (n n' : FName) (h : n' ≠ n) :
    fsRead (d.filter (fun p => p.1 ≠ n')) n = fsRead d n := by
  induction d with
  | nil => rfl
  | cons p t ih =>
    simp only [List.filter_cons]
    by_cases hp : p.1 = n'
    · simpa [hp, fsRead, h] using ih
    · by_cases hn : p.1 = n
      · have hnn : ¬n = n' := fun hh => hp (hn.trans hh)
        simp [fsRead, hn, hnn]
      · simpa [hp, fsRead, hn] using ih

theorem fsRead_fsWrite_ne (d : FsDir) (n n' : FName) (c : List Nat) (h : n' ≠ n) :
    fsRead (fsWrite d n' c) n = fsRead d n := by
  simp only [fsWrite, fsRead, h, if_false]
  exact fsRead_filter_ne d n n' h

/-! ## CRC range facts -/

theorem crcRounds_lt : ∀ (k c : Nat), c < 2 ^ 32 → crcRounds k c < 2 ^ 32
  | 0, _, h => h
  | k + 1, c, h => by
    rw [crcRounds]
    apply crcRounds_lt k
    by_cases hb : c % 2 = 1
    · simp only [hb, if_pos rfl]
      exact Nat.xor_lt_two_pow (by omega) (by norm_num)
    · simp only [hb, if_false]
      omega

theorem crcByte_lt (c b : Nat) (h : c < 2 ^ 32) : crcByte c b < 2 ^ 32 := by
  unfold crcByte
  exact crcRounds_lt 8 _ (Nat.xor_lt_two_pow h (by have := Nat.mod_lt b (y := 256) (by omega); omega))

theorem crcUpdate_lt (bs : List Nat) (c : Nat) (h : c < 2 ^ 32) : crcUpdate c bs < 2 ^ 32 := by
  induction bs generalizing c with
  | nil => exact h
  | cons b t ih => exact ih _ (crcByte_lt c b h)

theorem generate_checksum_lt (t : Nat) (k v : List Nat) :
    Entry.generate_checksum t k v < 2 ^ 32 := by
  unfold Entry.generate_checksum crcFinalize
  apply Nat.xor_lt_two_pow _ (by norm_num)
  apply crcUpdate_lt
  apply crcUpdate_lt
  apply crcUpdate_lt
  norm_num [crcInit]

theorem WFEntry_new (k v : List Nat) (t : Nat)
    (hk : k.length < 2 ^ 64) (hv : v.length < 2 ^ 64) : WFEntry (Entry.new k v t) :=
  ⟨generate_checksum_lt _ _ _, Nat.mod_lt _ (by norm_num), hk, hv⟩

theorem checksumOk_new (k v : List Nat) (t : Nat) : checksumOk (Entry.new k v t) := rfl

theorem WFEntry_mark_deleted (e : Entry) (h : WFEntry e) : WFEntry (Entry.mark_deleted e) := h

theorem checksumOk_mark_deleted (e : Entry) (h : checksumOk e) :
    checksumOk (Entry.mark_deleted e) := h

/-! ## The reachable-state invariant -/

/-- every file of the directory is a concatenation of well-formed record
encodings. -/
def FilesWF (s : Bitcask) : Prop :=
  ∀ n c, fsRead s.dir n = some c →
    ∃ recs, c = encodeEntries recs ∧ ∀ x ∈ recs, WFEntry x

/-- the working file handle addresses a present file and its tracked
in-memory size counter equals that file's byte length. -/
def WorkingWF (s : Bitcask) : Prop :=
  ∀ wf, s.working_file = some wf →
    ∃ c, fsRead s.dir wf.name = some c ∧ wf.size_b = c.length

/-- every key-directory binding addresses a live record with that key at
a record boundary of its file, whose stored checksum is the CRC the
writer computes (the spec's `DirEntry` invariant). -/
def KeyDirWF (s : Bitcask) : Prop :=
  ∀ k de, kdLookup k s.key_dir = some de →
    ∃ L p, ∃ hp : p < L.length,
      fsRead s.dir de.file_name = some (encodeEntries L) ∧
      (∀ x ∈ L, WFEntry x) ∧
      de.entry_pos = offsetAt L p ∧
      (L.get ⟨p, hp⟩).key = k ∧
      (L.get ⟨p, hp⟩).is_deleted = false ∧
      checksumOk (L.get ⟨p, hp⟩)

/-- the invariant of every store state reachable from a fresh
read-write open through `put`/`get`/`delete`. -/
def StoreInv (s : Bitcask) : Prop :=
  (s.options.read_write = true → s.working_file.isSome) ∧
  WorkingWF s ∧ FilesWF s ∧ KeyDirWF s

theorem StoreInv_of_eq (s s' : Bitcask) (h1 : s'.dir = s.dir)
    (h2 : s'.working_file = s.working_file) (h3 : s'.key_dir = s.key_dir)
    (h4 : s'.options = s.options) (h : StoreInv s) : StoreInv s' := by
  unfold StoreInv WorkingWF FilesWF KeyDirWF at *
  rw [h1, h2, h3, h4]
  exact h

/-! ## Invariant preservation -/

theorem offsetAt_append_le (a b : List Entry) (p : Nat) (hp : p ≤ a.length) :
    offsetAt (a ++ b) p = offsetAt a p := by
  unfold offsetAt
  rw [List.take_append_eq_append_take, Nat.sub_eq_zero_of_le hp]
  simp

theorem offsetAt_append_self (a b : List Entry) :
    offsetAt (a ++ b) a.length = (encodeEntries a).length := by
  unfold offsetAt
  rw [List.take_append_eq_append_take, Nat.sub_self]
  simp

theorem get_append_left (a b : List Entry) (p : Nat) (hp : p < a.length)
    (h2 : p < (a ++ b).length) : (a ++ b).get ⟨p, h2⟩ = a.get ⟨p, hp⟩ := by
  simp [List.get_eq_getElem, List.getElem_append_left hp]

theorem get_concat_self (a : List Entry) (e : Entry) (h : a.length < (a ++ [e]).length) :
    (a ++ [e]).get ⟨a.length, h⟩ = e := by
  simp [List.get_eq_getElem, List.getElem_concat_length]

theorem StoreInv_addEmptyFile (s : Bitcask) (id j : Nat) (h : StoreInv s)
    (hfresh : fsRead s.dir (FName.wfName id) = none) :
    StoreInv { s with dir := fsWrite s.dir (FName.wfName id) [],
                      working_file := some ⟨FName.wfName id, 0⟩,
                      working_file_id := some j } := by
  obtain ⟨_, _, hF, hK⟩ := h
  refine ⟨fun _ => rfl, ?_, ?_, ?_⟩
  · intro wf hwf
    cases hwf
    exact ⟨[], fsRead_fsWrite_self _ _ _, rfl⟩
  · intro n c hc
    by_cases hn : n = FName.wfName id
    · subst hn
      rw [fsRead_fsWrite_self] at hc
      cases hc
      exact ⟨[], rfl, by simp⟩
    · rw [fsRead_fsWrite_ne _ _ _ _ (fun hh => hn hh.symm)] at hc
      exact hF n c hc
  · intro k' de hde
    obtain ⟨L, p, hp, hcL, hwfL, hpos, hkey, hdel, hchk⟩ := hK k' de hde
    refine ⟨L, p, hp, ?_, hwfL, hpos, hkey, hdel, hchk⟩
    have hne : FName.wfName id ≠ de.file_name := by
      intro hh
      rw [← hh, hfresh] at hcL
      cases hcL
    rw [fsRead_fsWrite_ne _ _ _ _ hne]
    exact hcL

theorem StoreInv_append (s1 : Bitcask) (wf : WorkingFile) (recs : List Entry) (e : Entry)
    (k : List Nat) (hek : e.key = k)
    (hc0 : fsRead s1.dir wf.name = some (encodeEntries recs))
    (hsz : wf.size_b = (encodeEntries recs).length)
    (hwfr : ∀ x ∈ recs, WFEntry x) (hwe : WFEntry e) (hck : checksumOk e)
    (hdel : e.is_deleted = false) (hinv : StoreInv s1) :
    StoreInv { s1 with
      dir := fsWrite s1.dir wf.name (encodeEntries recs ++ encodeEntry e),
      working_file := some ⟨wf.name, wf.size_b + (encodeEntry e).length⟩,
      key_dir := kdInsert k
        ⟨wf.name, wf.size_b + (encodeEntry e).length - (encodeEntry e).length, e.timestamp⟩
        s1.key_dir } := by
  obtain ⟨_, _, hF, hK⟩ := hinv
  have hctot : encodeEntries recs ++ encodeEntry e = encodeEntries (recs ++ [e]) := by
    rw [encodeEntries_append]
    simp [encodeEntries]
  have hlenrec : recs.length < (recs ++ [e]).length := by
    simp
  refine ⟨fun _ => rfl, ?_, ?_, ?_⟩
  · intro wf' hwf'
    cases hwf'
    refine ⟨encodeEntries recs ++ encodeEntry e, fsRead_fsWrite_self _ _ _, ?_⟩
    simp [List.length_append, hsz]
  · intro n c hc
    by_cases hn : n = wf.name
    · subst hn
      rw [fsRead_fsWrite_self] at hc
      cases hc
      refine ⟨recs ++ [e], hctot.symm ▸ rfl, ?_⟩
      intro x hx
      rcases List.mem_append.mp hx with hx | hx
      · exact hwfr x hx
      · rw [List.mem_singleton.mp hx]
        exact hwe
    · rw [fsRead_fsWrite_ne _ _ _ _ (fun hh => hn hh.symm)] at hc
      exact hF n c hc
  · intro k' de' hde'
    by_cases hkk : k' = k
    · subst hkk
      rw [kdLookup_kdInsert_self] at hde'
      cases hde'
      refine ⟨recs ++ [e], recs.length, hlenrec, ?_, ?_, ?_, ?_, ?_, ?_⟩
      · rw [fsRead_fsWrite_self, hctot]
      · intro x hx
        rcases List.mem_append.mp hx with hx | hx
        · exact hwfr x hx
        · rw [List.mem_singleton.mp hx]
          exact hwe
      · show wf.size_b + (encodeEntry e).length - (encodeEntry e).length = _
        rw [Nat.add_sub_cancel, offsetAt_append_self, hsz]
      · rw [get_concat_self]
        exact hek
      · rw [get_concat_self]
        exact hdel
      · rw [get_concat_self]
        exact hck
    · rw [kdLookup_kdInsert_ne _ _ _ _ (fun hh => hkk hh.symm)] at hde'
      obtain ⟨L', p', hp', hcL', hwfL', hpos', hkey', hdel', hchk'⟩ := hK k' de' hde'
      by_cases hn : de'.file_name = wf.name
      · rw [hn, hc0] at hcL'
        have hLrec : recs = L' :=
          encodeEntries_inj recs L' hwfr hwfL' (Option.some.inj hcL')
        subst hLrec
        have hp2 : p' < (recs ++ [e]).length := by
          simp only [List.length_append, List.length_singleton]
          omega
        refine ⟨recs ++ [e], p', hp2, ?_, ?_, ?_, ?_, ?_, ?_⟩
        · rw [hn, fsRead_fsWrite_self, hctot]
        · intro x hx
          rcases List.mem_append.mp hx with hx | hx
          · exact hwfr x hx
          · rw [List.mem_singleton.mp hx]
            exact hwe
        · rw [hpos', offsetAt_append_le _ _ _ hp'.le]
        · rw [get_append_left _ _ _ hp']
          exact hkey'
        · rw [get_append_left _ _ _ hp']
          exact hdel'
        · rw [get_append_left _ _ _ hp']
          exact hchk'
      · refine ⟨L', p', hp', ?_, hwfL', hpos', hkey', hdel', hchk'⟩
        rw [fsRead_fsWrite_ne _ _ _ _ (fun hh => hn hh.symm)]
        exact hcL'

theorem putBody_sem (s1 : Bitcask) (wf : WorkingFile) (k v : List Nat) (t : Nat)
    (hw : s1.working_file = some wf) (hinv : StoreInv s1)
    (hk : k.length < 2 ^ 64) (hv : v.length < 2 ^ 64) :
    ∃ recs : List Entry,
      fsRead s1.dir wf.name = some (encodeEntries recs) ∧
      (∀ x ∈ recs, WFEntry x) ∧
      wf.size_b = (encodeEntries recs).length ∧
      (Bitcask.putBody s1 wf k v t).1.working_file.isSome = true ∧
      (Bitcask.putBody s1 wf k v t).1.options = s1.options ∧
      kdLookup k (Bitcask.putBody s1 wf k v t).1.key_dir =
        some ⟨wf.name, wf.size_b, (Entry.new k v t).timestamp⟩ ∧
      fsRead (Bitcask.putBody s1 wf k v t).1.dir wf.name =
        some (encodeEntries (recs ++ [Entry.new k v t])) ∧
      StoreInv (Bitcask.putBody s1 wf k v t).1 := by
  obtain ⟨hrw0, hW, hF, hK⟩ := hinv
  obtain ⟨c0, hc0, hsz0⟩ := hW wf hw
  obtain ⟨recs, hrec, hwfr⟩ := hF wf.name c0 hc0
  subst hrec
  refine ⟨recs, hc0, hwfr, hsz0, ?_⟩
  have hinv1 : StoreInv s1 := ⟨hrw0, hW, hF, hK⟩
  have hwe : WFEntry (Entry.new k v t) := WFEntry_new k v t hk hv
  have hinv2 := StoreInv_append s1 wf recs (Entry.new k v t) k rfl hc0 hsz0 hwfr hwe rfl rfl hinv1
  have hctot : encodeEntries recs ++ encodeEntry (Entry.new k v t) =
      encodeEntries (recs ++ [Entry.new k v t]) := by
    rw [encodeEntries_append]
    simp [encodeEntries]
  unfold Bitcask.putBody
  rw [hc0]
  simp only [Option.getD_some]
  by_cases hex : (encodeEntry (Entry.new k v t)).length + wf.size_b >
      s1.options.max_data_size
  · simp only [if_pos hex]
    rcases hopen : WorkingFile.openNew
        (fsWrite s1.dir wf.name (encodeEntries recs ++ encodeEntry (Entry.new k v t)))
        (s1.working_file_id.getD 0 + 1) with ⟨d2, wfNew⟩ | er | m
    · unfold WorkingFile.openNew at hopen
      rcases hfresh : fsRead
          (fsWrite s1.dir wf.name (encodeEntries recs ++ encodeEntry (Entry.new k v t)))
          (FName.wfName (s1.working_file_id.getD 0 + 1)) with _ | c1
      · rw [hfresh] at hopen
        injection hopen with hopen2
        injection hopen2 with hd2 hwfNew
        subst hd2
        subst hwfNew
        have hne : FName.wfName (s1.working_file_id.getD 0 + 1) ≠ wf.name := by
          intro hh
          rw [hh, fsRead_fsWrite_self] at hfresh
          cases hfresh
        dsimp only
        refine ⟨by trivial, by trivial, ?_, ?_, ?_⟩
        · rw [kdLookup_kdInsert_self]
          simp [Nat.add_sub_cancel]
        · rw [fsRead_fsWrite_ne _ _ _ _ hne, fsRead_fsWrite_self, hctot]
        · exact StoreInv_addEmptyFile _ _ _ hinv2 hfresh
      · rw [hfresh] at hopen
        cases hopen
    · dsimp only
      refine ⟨by trivial, by trivial, ?_, ?_, ?_⟩
      · rw [kdLookup_kdInsert_self]
        simp [Nat.add_sub_cancel]
      · rw [fsRead_fsWrite_self, hctot]
      · exact StoreInv_of_eq _ _ rfl rfl rfl rfl hinv2
    · dsimp only
      refine ⟨by trivial, by trivial, ?_, ?_, ?_⟩
      · rw [kdLookup_kdInsert_self]
        simp [Nat.add_sub_cancel]
      · rw [fsRead_fsWrite_self, hctot]
      · exact StoreInv_of_eq _ _ rfl rfl rfl rfl hinv2
  · simp only [if_neg hex]
    refine ⟨by trivial, by trivial, ?_, ?_, ?_⟩
    · rw [kdLookup_kdInsert_self]
      simp [Nat.add_sub_cancel]
    · rw [fsRead_fsWrite_self, hctot]
    · exact hinv2

theorem gfck_ok (s : Bitcask) (wf : WorkingFile) (hw : s.working_file = some wf) (n : FName)
    (hn : (fsRead s.dir n).isSome = true) :
    ∃ s1, Bitcask.get_file_containing_key s n = (s1, .ok n) ∧
      s1.dir = s.dir ∧ s1.working_file = some wf ∧
      s1.key_dir = s.key_dir ∧ s1.options = s.options := by
  unfold Bitcask.get_file_containing_key
  rw [hw]
  by_cases h1 : n = wf.name
  · exact ⟨s, by simp [h1], rfl, hw, rfl, rfl⟩
  · by_cases h2 : n ∈ s.files_pool
    · exact ⟨s, by simp [h1, h2], rfl, hw, rfl, rfl⟩
    · rcases hr : fsRead s.dir n with _ | c
      · rw [hr] at hn
        simp at hn
      · exact ⟨{ s with files_pool := n :: s.files_pool }, by simp [h1, h2, hr, hw],
          rfl, hw, rfl, rfl⟩

theorem get_sem (s : Bitcask) (wf : WorkingFile) (hw : s.working_file = some wf)
    (k : List Nat) (de : DirEntry) (hde : kdLookup k s.key_dir = some de)
    (L : List Entry) (p : Nat) (hp : p < L.length)
    (hc : fsRead s.dir de.file_name = some (encodeEntries L))
    (hwfL : ∀ x ∈ L, WFEntry x)
    (hpos : de.entry_pos = offsetAt L p) :
    (Bitcask.get s k).2 = .ok (L.get ⟨p, hp⟩).value := by
  obtain ⟨s1, hgf, hdir, _, _, _⟩ := gfck_ok s wf hw de.file_name (by rw [hc]; rfl)
  have hmem : L.get ⟨p, hp⟩ ∈ L := L.get_mem _ _
  simp only [Bitcask.get, hde, hgf, hdir, hc, Option.getD_some, hpos,
    drop_offsetAt L p hp, decodeEntry_encode _ _ (hwfL _ hmem)]

theorem put_eq_putBody (s : Bitcask) (wf : WorkingFile) (k v : List Nat) (t : Nat)
    (hw : s.working_file = some wf) :
    Bitcask.put s k v t = Bitcask.putBody s wf k v t := by
  unfold Bitcask.put
  rw [hw]

theorem put_then_get (s : Bitcask) (wf : WorkingFile) (k v : List Nat) (t : Nat)
    (hw : s.working_file = some wf) (hinv : StoreInv s)
    (hk : k.length < 2 ^ 64) (hv : v.length < 2 ^ 64) :
    (Bitcask.get (Bitcask.put s k v t).1 k).2 = .ok v := by
  rw [put_eq_putBody s wf k v t hw]
  obtain ⟨recs, hc0, hwfr, hsz, hsome, hopts, hkd, hread, hinv2⟩ :=
    putBody_sem s wf k v t hw hinv hk hv
  obtain ⟨wf', hw'⟩ := Option.isSome_iff_exists.mp hsome
  have hlen : recs.length < (recs ++ [Entry.new k v t]).length := by simp
  have hwfL : ∀ x ∈ recs ++ [Entry.new k v t], WFEntry x := by
    intro x hx
    rcases List.mem_append.mp hx with hx | hx
    · exact hwfr x hx
    · rw [List.mem_singleton.mp hx]
      exact WFEntry_new k v t hk hv
  have hval := get_sem (Bitcask.putBody s wf k v t).1 wf' hw' k
    ⟨wf.name, wf.size_b, (Entry.new k v t).timestamp⟩ hkd
    (recs ++ [Entry.new k v t]) recs.length hlen hread hwfL
    (by show wf.size_b = _; rw [hsz, offsetAt_append_self])
  rw [hval, get_concat_self]
  rfl

theorem put_isSome (s : Bitcask) (k v : List Nat) (t : Nat) (wf : WorkingFile)
    (hw : s.working_file = some wf) (hinv : StoreInv s)
    (hk : k.length < 2 ^ 64) (hv : v.length < 2 ^ 64) :
    (Bitcask.put s k v t).1.working_file.isSome = true := by
  rw [put_eq_putBody s wf k v t hw]
  obtain ⟨_, _, _, _, hsome, _⟩ := putBody_sem s wf k v t hw hinv hk hv
  exact hsome

theorem StoreInv_put (s : Bitcask) (k v : List Nat) (t : Nat)
    (hk : k.length < 2 ^ 64) (hv : v.length < 2 ^ 64) (hinv : StoreInv s) :
    StoreInv (Bitcask.put s k v t).1 := by
  unfold Bitcask.put
  rcases hw : s.working_file with _ | wf
  · rcases hopen : WorkingFile.openNew s.dir 0 with ⟨d1, wf0⟩ | er | m
    · unfold WorkingFile.openNew at hopen
      rcases hfresh : fsRead s.dir (FName.wfName 0) with _ | c
      · rw [hfresh] at hopen
        injection hopen with h2
        injection h2 with hd1 hwf0
        subst hd1
        subst hwf0
        have hinv0 := StoreInv_addEmptyFile s 0 0 hinv hfresh
        obtain ⟨_, _, _, _, _, _, _, _, hinv2⟩ :=
          putBody_sem _ ⟨FName.wfName 0, 0⟩ k v t rfl hinv0 hk hv
        exact hinv2
      · rw [hfresh] at hopen
        cases hopen
    · exact hinv
    · exact hinv
  · obtain ⟨_, _, _, _, _, _, _, _, hinv2⟩ := putBody_sem s wf k v t hw hinv hk hv
    exact hinv2

/-- C2: on a store opened read-write, `put(k, v)` followed by `get(k)`
returns exactly `v`, and `put(k, v1)` then `put(k, v2)` makes `get(k)`
return `v2` (the later write supersedes the earlier one via the index). -/
theorem C2_put_get_roundtrip (s : Bitcask) (k v1 v2 : List Nat) (t1 t2 : Nat)
    (hinv : StoreInv s) (hrw : s.options.read_write = true)
    (hk : k.length < 2 ^ 64) (hv1 : v1.length < 2 ^ 64) (hv2 : v2.length < 2 ^ 64) :
    (Bitcask.get (Bitcask.put s k v1 t1).1 k).2 = .ok v1 ∧
    (Bitcask.get (Bitcask.put (Bitcask.put s k v1 t1).1 k v2 t2).1 k).2 = .ok v2 := by
  obtain ⟨wf, hw⟩ := Option.isSome_iff_exists.mp (hinv.1 hrw)
  constructor
  · exact put_then_get s wf k v1 t1 hw hinv hk hv1
  · have hinv1 := StoreInv_put s k v1 t1 hk hv1 hinv
    have hsome1 := put_isSome s k v1 t1 wf hw hinv hk hv1
    obtain ⟨wf1, hw1⟩ := Option.isSome_iff_exists.mp hsome1
    exact put_then_get _ wf1 k v2 t2 hw1 hinv1 hk hv2

theorem gfck_fst (s : Bitcask) (n : FName) :
    (Bitcask.get_file_containing_key s n).1.key_dir = s.key_dir ∧
    (Bitcask.get_file_containing_key s n).1.dir = s.dir ∧
    (Bitcask.get_file_containing_key s n).1.working_file = s.working_file ∧
    (Bitcask.get_file_containing_key s n).1.options = s.options := by
  unfold Bitcask.get_file_containing_key
  rcases hsw : s.working_file with _ | wf
  · simp [hsw]
  · by_cases h1 : n = wf.name
    · simp [h1, hsw]
    · by_cases h2 : n ∈ s.files_pool
      · simp [h1, h2, hsw]
      · rcases hr : fsRead s.dir n with _ | c
        · simp [h1, h2, hr, hsw]
        · simp [h1, h2, hr, hsw]

theorem gfck_ok_name (s : Bitcask) (n m : FName)
    (h : (Bitcask.get_file_containing_key s n).2 = .ok m) : m = n := by
  unfold Bitcask.get_file_containing_key at h
  split at h
  · simp at h
  · split at h
    · simp at h
      exact h.symm
    · split at h
      · simp at h
        exact h.symm
      · split at h
        · simp at h
          exact h.symm
        · simp at h

theorem gfck_err (s : Bitcask) (n : FName) (e : BErr)
    (h : (Bitcask.get_file_containing_key s n).2 = .err e) : e = .openFileMissing := by
  unfold Bitcask.get_file_containing_key at h
  split at h
  · simp at h
  · split at h
    · simp at h
    · split at h
      · simp at h
      · split at h
        · simp at h
        · simp at h
          exact h.symm

theorem not_mem_keys_kdRemove (k : List Nat) (m : KeyDir) :
    k ∉ (kdRemove k m).map (fun p => p.1) := by
  intro hmem
  simp only [kdRemove, List.mem_map] at hmem
  obtain ⟨p, hp, hpk⟩ := hmem
  rw [List.mem_filter] at hp
  exact absurd hpk (by simpa using hp.2)

/-- C9: `delete(k)` fails with NotFound if and only if `k` is absent
from the Key Directory, and after a successful `delete(k)`, `get(k)`
fails with NotFound and `k` is absent from `list_keys()`. -/
theorem C9_delete_notfound (s : Bitcask) (k : List Nat) :
    ((Bitcask.delete s k).2 = .err .keyNotFound ↔ kdLookup k s.key_dir = none) ∧
    ((Bitcask.delete s k).2 = .ok () →
      (Bitcask.get (Bitcask.delete s k).1 k).2 = .err .keyNotFound ∧
      k ∉ Bitcask.list_keys (Bitcask.delete s k).1) := by
  rcases hde : kdLookup k s.key_dir with _ | de
  · constructor
    · simp [Bitcask.delete, hde]
    · intro h
      simp [Bitcask.delete, hde] at h
  · rcases hg : Bitcask.get_file_containing_key s de.file_name with ⟨s1, o⟩
    rcases o with name | e' | m
    · rcases hdec : decodeEntry (((fsRead s1.dir name).getD []).drop de.entry_pos)
          with ⟨e, r⟩ | _ | _
      · constructor
        · simp [Bitcask.delete, hde, hg, hdec]
        · intro _
          constructor
          · simp only [Bitcask.delete, hde, hg, hdec, Bitcask.get]
            simp [kdLookup_kdRemove_self]
          · simp only [Bitcask.delete, hde, hg, hdec, Bitcask.list_keys]
            exact not_mem_keys_kdRemove k s1.key_dir
      · constructor
        · simp [Bitcask.delete, hde, hg, hdec]
        · intro h
          simp [Bitcask.delete, hde, hg, hdec] at h
      · constructor
        · simp [Bitcask.delete, hde, hg, hdec]
        · intro h
          simp [Bitcask.delete, hde, hg, hdec] at h
    · have he' : e' = .openFileMissing := gfck_err s de.file_name e' (by rw [hg])
      subst he'
      constructor
      · simp [Bitcask.delete, hde, hg]
      · intro h
        simp [Bitcask.delete, hde, hg] at h
    · constructor
      · simp [Bitcask.delete, hde, hg]
      · intro h
        simp [Bitcask.delete, hde, hg] at h

/-- the default options with `read_write` enabled. -/
def rwDefault : Options := { Options.default with read_write := true }

/-- the store produced by a read-write open of an empty directory:
`bitcask.lock` and an empty `working_file_0` get created. -/
def freshStore : Bitcask :=
  { dir := [(FName.wfName 0, []), (FName.lockName, [])]
    working_file := some ⟨FName.wfName 0, 0⟩
    working_file_id := some 0
    key_dir := []
    options := rwDefault
    files_pool := [] }

theorem openDb_empty_rw : Bitcask.openDb [] false (some rwDefault) = .ok freshStore := rfl

theorem StoreInv_freshStore : StoreInv freshStore := by
  refine ⟨fun _ => rfl, ?_, ?_, ?_⟩
  · intro wf hwf
    cases hwf
    exact ⟨[], rfl, rfl⟩
  · intro n c hc
    have hc0 : c = [] := by
      simp only [freshStore] at hc
      unfold fsRead at hc
      split at hc
      · exact (Option.some.inj hc).symm
      · unfold fsRead at hc
        split at hc
        · exact (Option.some.inj hc).symm
        · cases hc
    exact ⟨[], by rw [hc0]; rfl, by simp⟩
  · intro k de hde
    simp [freshStore, kdLookup] at hde

/-- the store after putting key `[1]` with value `[2]` into a fresh
read-write store (used by concrete witnesses). -/
def sAfterPut : Bitcask := (Bitcask.put freshStore [1] [2] 5).1

set_option maxRecDepth 10000 in
/-- witness for C9: on the concrete store holding key `[1]`, `delete`
succeeds, and afterwards `get` fails with NotFound and the key is gone
from `list_keys`. -/
theorem C9_delete_notfound_witness :
    (Bitcask.delete sAfterPut [1]).2 = .ok () ∧
    ((Bitcask.get (Bitcask.delete sAfterPut [1]).1 [1]).2 = .err .keyNotFound ∧
      [1] ∉ Bitcask.list_keys (Bitcask.delete sAfterPut [1]).1) :=
  ⟨by decide, (C9_delete_notfound sAfterPut [1]).2 (by decide)⟩

set_option maxRecDepth 10000 in
/-- witness for C2 on the fresh read-write store with key `[1]` and
values `[2]` then `[3]`. -/
theorem C2_put_get_roundtrip_witness :
    (StoreInv freshStore ∧ freshStore.options.read_write = true ∧
      ([1] : List Nat).length < 2 ^ 64 ∧ ([2] : List Nat).length < 2 ^ 64 ∧
      ([3] : List Nat).length < 2 ^ 64) ∧
    ((Bitcask.get (Bitcask.put freshStore [1] [2] 5).1 [1]).2 = .ok [2] ∧
      (Bitcask.get (Bitcask.put (Bitcask.put freshStore [1] [2] 5).1 [1] [3] 6).1 [1]).2 =
        .ok [3]) :=
  ⟨⟨StoreInv_freshStore, rfl, by decide, by decide, by decide⟩,
    C2_put_get_roundtrip freshStore [1] [2] [3] 5 6 StoreInv_freshStore rfl
      (by decide) (by decide) (by decide)⟩

/-- a record whose stored checksum differs (by one flipped bit) from the
CRC recomputed over its timestamp, key and value. -/
def eBad : Entry :=
  ⟨Nat.xor (Entry.generate_checksum 3 [1] [2]) 1, 3, [1], [2], false⟩

/-- a one-segment directory whose single record is checksum-corrupted
but structurally intact. -/
def corruptDir : FsDir := [(FName.wfName 0, encodeEntry eBad)]

/-- a one-segment directory holding one live, intact record for key
`[1]` with value `[2]`. -/
def liveDir : FsDir := [(FName.wfName 0, encodeEntry eW1)]

set_option maxRecDepth 10000 in
/-- C1 (code bug): the stored checksum of the record below does not
match the CRC32 recomputed over timestamp, key and value, yet `open`
succeeds, indexes the record, and `get` returns its value — neither the
recovery replay nor `get` ever recomputes the CRC, so no Corruption
error is possible. -/
theorem C1_no_checksum_verification :
    eBad.crc_checksum ≠ Entry.generate_checksum eBad.timestamp eBad.key eBad.value ∧
    ∃ s, Bitcask.openDb corruptDir false (some rwDefault) = .ok s ∧
      kdLookup [1] s.key_dir = some ⟨FName.wfName 0, 0, 3⟩ ∧
      (Bitcask.get s [1]).2 = .ok [2] := by
  refine ⟨by decide, _, rfl, by decide, by decide⟩

set_option maxRecDepth 10000 in
/-- C7 (code bug): a read-only open of a directory with one live record
succeeds and indexes the key, but `get` on that key panics on the
`unwrap` of the absent working file instead of returning the value. -/
theorem C7_readonly_get_panics :
    ∃ s, Bitcask.openDb liveDir false none = .ok s ∧
      s.options.read_write = false ∧
      kdLookup [1] s.key_dir = some ⟨FName.wfName 0, 0, 3⟩ ∧
      (Bitcask.get s [1]).2 = .panicked noWorkingFileMsg := by
  refine ⟨_, rfl, by decide, by decide, by decide⟩

set_option maxRecDepth 10000 in
/-- C6 (code bug): on a read-only handle, `put` does not fail with an
invalid-state error — it lazily creates `working_file_0`, appends the
record and updates the Key Directory; and `delete` of a present key on a
read-only handle panics instead of returning an error. -/
theorem C6_readonly_put_writes :
    (∃ s, Bitcask.openDb [] false none = .ok s ∧
      s.options.read_write = false ∧
      (Bitcask.put s [1] [2] 7).2 = .ok () ∧
      fsRead (Bitcask.put s [1] [2] 7).1.dir (FName.wfName 0) =
        some (encodeEntry (Entry.new [1] [2] 7)) ∧
      kdLookup [1] (Bitcask.put s [1] [2] 7).1.key_dir =
        some ⟨FName.wfName 0, 0, 7⟩) ∧
    (∃ s2, Bitcask.openDb liveDir false none = .ok s2 ∧
      (Bitcask.delete s2 [1]).2 = .panicked noWorkingFileMsg) := by
  constructor
  · refine ⟨_, rfl, by decide, by decide, by decide, by decide⟩
  · refine ⟨_, rfl, by decide⟩

/-- C5 counterexample: with the advisory lock already held by another
writer, a read-write open does not return an AlreadyLocked error — it
panics (the `expect` on `try_lock`), i.e. the process crashes. -/
theorem C5_already_locked_counterexample :
    Bitcask.openDb [] true (some rwDefault) = .panicked lockPanicMsg := by decide

/-- C5 amended: whenever a read-write open is attempted while another
writer holds the advisory lock (and the recovery replay itself
succeeds), the lock attempt is non-blocking and open fails immediately —
but by panicking with the fixed expect message, not by returning an
AlreadyLocked error to the caller. -/
theorem C5_already_locked_amended (d : FsDir) (opts : Options)
    (hrw : opts.read_write = true)
    (hbuild : ∃ kp, build_key_dir_map_and_files_pool d = .ok kp) :
    Bitcask.openDb d true (some opts) = .panicked lockPanicMsg := by
  obtain ⟨⟨kd, pool⟩, hb⟩ := hbuild
  unfold Bitcask.openDb
  simp only [Option.getD_some, hb, hrw, if_true]
  unfold try_acquire_write_lock
  simp

/-- witness for the amended C5 at the empty directory with default
read-write options. -/
theorem C5_already_locked_amended_witness :
    (rwDefault.read_write = true ∧
      ∃ kp, build_key_dir_map_and_files_pool [] = .ok kp) ∧
    Bitcask.openDb [] true (some rwDefault) = .panicked lockPanicMsg :=
  ⟨⟨rfl, ⟨([], []), rfl⟩⟩, C5_already_locked_amended [] rwDefault rfl ⟨([], []), rfl⟩⟩

/-- read-write options with a one-byte segment ceiling, so every put
rotates. -/
def tinyOpts : Options :=
  { read_write := true, sync_on_put := false, enable_compression := false
    max_data_size := 1 }

/-- a fresh store opened with `tinyOpts`. -/
def tinyStore : Bitcask :=
  { dir := [(FName.wfName 0, []), (FName.lockName, [])]
    working_file := some ⟨FName.wfName 0, 0⟩
    working_file_id := some 0
    key_dir := []
    options := tinyOpts
    files_pool := [] }

set_option maxHeartbeats 1000000 in
/-- C8: a `put` whose append makes the active segment's in-memory
tracked size exceed `max_data_size` seals that segment after the append
(the overflowing entry stays in it) and opens a new empty active segment
with id + 1, so a subsequent put lands in the new segment; a put that
does not exceed the ceiling leaves the active segment (and its id)
unchanged apart from the size counter. -/
theorem C8_segment_rotation (s : Bitcask) (wf : WorkingFile) (content : List Nat)
    (k v : List Nat) (t : Nat)
    (hw : s.working_file = some wf)
    (hc : fsRead s.dir wf.name = some content)
    (hfresh : fsRead s.dir (FName.wfName (s.working_file_id.getD 0 + 1)) = none) :
    (Bitcask.put s k v t).2 = .ok () ∧
    fsRead (Bitcask.put s k v t).1.dir wf.name =
      some (content ++ encodeEntry (Entry.new k v t)) ∧
    (if (encodeEntry (Entry.new k v t)).length + wf.size_b > s.options.max_data_size then
      (Bitcask.put s k v t).1.working_file_id = some (s.working_file_id.getD 0 + 1) ∧
      (Bitcask.put s k v t).1.working_file =
        some ⟨FName.wfName (s.working_file_id.getD 0 + 1), 0⟩ ∧
      fsRead (Bitcask.put s k v t).1.dir (FName.wfName (s.working_file_id.getD 0 + 1)) =
        some [] ∧
      ∀ k2 v2 t2, fsRead (Bitcask.put (Bitcask.put s k v t).1 k2 v2 t2).1.dir
          (FName.wfName (s.working_file_id.getD 0 + 1)) =
        some (encodeEntry (Entry.new k2 v2 t2))
    else
      (Bitcask.put s k v t).1.working_file =
        some ⟨wf.name, wf.size_b + (encodeEntry (Entry.new k v t)).length⟩ ∧
      (Bitcask.put s k v t).1.working_file_id = s.working_file_id) := by
  have hne : wf.name ≠ FName.wfName (s.working_file_id.getD 0 + 1) := by
    intro hh
    rw [← hh, hc] at hfresh
    cases hfresh
  rw [put_eq_putBody s wf k v t hw]
  unfold Bitcask.putBody
  rw [hc]
  simp only [Option.getD_some]
  have hfresh2 : fsRead (fsWrite s.dir wf.name (content ++ encodeEntry (Entry.new k v t)))
      (FName.wfName (s.working_file_id.getD 0 + 1)) = none := by
    rw [fsRead_fsWrite_ne _ _ _ _ hne]
    exact hfresh
  by_cases hex : (encodeEntry (Entry.new k v t)).length + wf.size_b >
      s.options.max_data_size
  · simp only [if_pos hex]
    unfold WorkingFile.openNew
    rw [hfresh2]
    dsimp only
    refine ⟨by trivial, ?_, by trivial, by trivial, ?_, ?_⟩
    · rw [fsRead_fsWrite_ne _ _ _ _ (Ne.symm hne), fsRead_fsWrite_self]
    · rw [fsRead_fsWrite_self]
    · intro k2 v2 t2
      rw [put_eq_putBody _ ⟨FName.wfName (s.working_file_id.getD 0 + 1), 0⟩ k2 v2 t2 rfl]
      unfold Bitcask.putBody
      rw [show fsRead (fsWrite
          (fsWrite s.dir wf.name (content ++ encodeEntry (Entry.new k v t)))
          (FName.wfName (s.working_file_id.getD 0 + 1)) [])
          (FName.wfName (s.working_file_id.getD 0 + 1)) = some [] from
        fsRead_fsWrite_self _ _ _]
      simp only [Option.getD_some, List.nil_append]
      by_cases hex2 : (encodeEntry (Entry.new k2 v2 t2)).length + 0 >
          s.options.max_data_size
      · simp only [if_pos hex2]
        unfold WorkingFile.openNew
        rcases hfr : fsRead (fsWrite
            (fsWrite (fsWrite s.dir wf.name (content ++ encodeEntry (Entry.new k v t)))
              (FName.wfName (s.working_file_id.getD 0 + 1)) [])
            (FName.wfName (s.working_file_id.getD 0 + 1)) (encodeEntry (Entry.new k2 v2 t2)))
            (FName.wfName (s.working_file_id.getD 0 + 1 + 1)) with _ | c1
        · dsimp only
          rw [fsRead_fsWrite_ne _ _ _ _ (by simp), fsRead_fsWrite_self]
        · dsimp only
          rw [fsRead_fsWrite_self]
      · simp only [if_neg hex2]
        rw [fsRead_fsWrite_self]
  · simp only [if_neg hex]
    exact ⟨by trivial, by rw [fsRead_fsWrite_self], by trivial, by trivial⟩


set_option maxRecDepth 10000 in
/-- witness for C8: on a fresh store whose segment ceiling is one byte,
a single put overflows the active segment, which gets sealed with the
record inside and replaced by an empty `working_file_1`. -/
theorem C8_segment_rotation_witness :
    (tinyStore.working_file = some ⟨FName.wfName 0, 0⟩ ∧
      fsRead tinyStore.dir (FName.wfName 0) = some [] ∧
      fsRead tinyStore.dir (FName.wfName (tinyStore.working_file_id.getD 0 + 1)) = none) ∧
    (Bitcask.put tinyStore [1] [2] 5).2 = .ok () ∧
    fsRead (Bitcask.put tinyStore [1] [2] 5).1.dir (FName.wfName 0) =
      some (encodeEntry (Entry.new [1] [2] 5)) ∧
    (Bitcask.put tinyStore [1] [2] 5).1.working_file_id = some 1 ∧
    (Bitcask.put tinyStore [1] [2] 5).1.working_file = some ⟨FName.wfName 1, 0⟩ ∧
    fsRead (Bitcask.put tinyStore [1] [2] 5).1.dir (FName.wfName 1) = some [] := by
  have h := C8_segment_rotation tinyStore ⟨FName.wfName 0, 0⟩ [] [1] [2] 5 rfl rfl rfl
  rw [if_pos (by decide)] at h
  exact ⟨⟨rfl, rfl, rfl⟩, h.1, h.2.1, h.2.2.1, h.2.2.2.1, h.2.2.2.2.1⟩

/-! ## C4: a truncated trailing record is treated as end-of-log -/

/-- the directory left by a crash mid-write: sealed segments `files`,
plus a highest-id segment `working_file_<n>` holding the records `recs`
followed by the first `m` bytes of one more record `etail`. -/
def truncDir (files : List (Nat × List Entry)) (n : Nat) (recs : List Entry)
    (etail : Entry) (m : Nat) : FsDir :=
  mkSegDir files ++ [(FName.wfName n, encodeEntries recs ++ (encodeEntry etail).take m)]

/-- the same directory at the record level, with the truncated tail
dropped. -/
def cleanSegs (files : List (Nat × List Entry)) (n : Nat) (recs : List Entry) :
    List (FName × List Entry) :=
  segFiles files ++ [(FName.wfName n, recs)]

theorem truncDir_eq_map (files : List (Nat × List Entry)) (n : Nat) (recs : List Entry)
    (etail : Entry) (m : Nat) :
    truncDir files n recs etail m =
      (segFiles files).map (fun p => (p.1, encodeEntries p.2)) ++
        [(FName.wfName n, encodeEntries recs ++ (encodeEntry etail).take m)] := by
  rw [truncDir, mkSegDir_eq_map]

/-- `buildLoop` over encoded segments whose last file carries extra
bytes that decode to `UnexpectedEof`: the tail is dropped and the rest
replays exactly as if it were absent. -/
theorem buildLoop_sem_last : ∀ (fl : List (FName × List Entry)) (lname : FName)
    (lrecs : List Entry) (tail : List Nat) (kd : KeyDir) (pool : List FName),
    (∀ p ∈ fl, ∀ x ∈ p.2, WFEntry x) → (∀ x ∈ lrecs, WFEntry x) →
    decodeEntry tail = .eofr →
    buildLoop (fl.map (fun p => (p.1, encodeEntries p.2)) ++
        [(lname, encodeEntries lrecs ++ tail)]) kd pool =
      .ok ((flatRecs (fl ++ [(lname, lrecs)])).foldl replayTagged kd,
        pool ++ (fl ++ [(lname, lrecs)]).map (fun p => p.1))
  | [], lname, lrecs, tail, kd, pool, _, hwfl, htail => by
    have hscan : scanFile ((encodeEntries lrecs ++ tail).length + 1) lname 0
        (encodeEntries lrecs ++ tail) kd =
        .ok ((withOffsets 0 lrecs).foldl (fun k2 pe => replayEntry lname k2 pe.1 pe.2) kd) :=
      scanFile_sem lrecs tail _ 0 lname kd hwfl htail
        (by
          have h1 := length_le_length_encodeEntries lrecs
          simp only [List.length_append]
          omega)
    simp only [List.map_nil, List.nil_append, buildLoop, hscan, flatRecs, tagFile,
      List.foldl_append, List.foldl_map, replayTagged, List.map_cons, List.append_nil,
      List.foldl_nil]
  | (name, recs) :: rest, lname, lrecs, tail, kd, pool, hwf, hwfl, htail => by
    have hscan : scanFile ((encodeEntries recs).length + 1) name 0 (encodeEntries recs) kd =
        .ok ((withOffsets 0 recs).foldl (fun k2 pe => replayEntry name k2 pe.1 pe.2) kd) := by
      have h := scanFile_sem recs [] ((encodeEntries recs).length + 1) 0 name kd
        (fun x hx => hwf (name, recs) (by simp) x hx) rfl
        (Nat.lt_succ_of_le (length_le_length_encodeEntries recs))
      simpa using h
    simp only [List.map_cons, List.cons_append, buildLoop, hscan, List.append_eq]
    rw [buildLoop_sem_last rest lname lrecs tail _ _ (fun p hp => hwf p (by simp [hp]))
      hwfl htail]
    simp only [flatRecs, tagFile, List.foldl_append, List.foldl_map, replayTagged,
      List.map_cons, List.cons_append, List.append_assoc, List.singleton_append]
    rfl

theorem findLastRec_mem : ∀ (rs : List (FName × Nat × Entry)) (k : List Nat)
    (x : FName × Nat × Entry), findLastRec k rs = some x → x ∈ rs
  | [], _, _, h => by cases h
  | r :: rest, k, x, h => by
    simp only [findLastRec] at h
    rcases hfind : findLastRec k rest with _ | y
    · rw [hfind] at h
      by_cases hk : r.2.2.key = k
      · rw [if_pos hk] at h
        injection h with h2
        subst h2
        exact List.mem_cons_self r rest
      · rw [if_neg hk] at h
        cases h
    · rw [hfind] at h
      injection h with h2
      subst h2
      exact List.mem_cons_of_mem _ (findLastRec_mem rest k y hfind)

theorem mem_withOffsets : ∀ (L : List Entry) (base q : Nat) (e : Entry),
    (q, e) ∈ withOffsets base L →
    ∃ i, ∃ h : i < L.length, L.get ⟨i, h⟩ = e ∧ q = base + offsetAt L i
  | [], _, _, _, h => by cases h
  | e0 :: es, base, q, e, h => by
    simp only [withOffsets, List.mem_cons] at h
    rcases h with h | h
    · injection h with h1 h2
      subst h1
      subst h2
      exact ⟨0, by simp, rfl, by simp [offsetAt_zero]⟩
    · obtain ⟨i, hi, hget, hq⟩ := mem_withOffsets es (base + (encodeEntry e0).length) q e h
      refine ⟨i + 1, by simpa using Nat.succ_lt_succ hi, hget, ?_⟩
      rw [offsetAt_cons]
      omega

theorem mem_flatRecs : ∀ (fl : List (FName × List Entry)) (x : FName × Nat × Entry),
    x ∈ flatRecs fl → ∃ L, (x.1, L) ∈ fl ∧
      ∃ i, ∃ h : i < L.length, L.get ⟨i, h⟩ = x.2.2 ∧ x.2.1 = offsetAt L i
  | [], _, h => by cases h
  | p :: rest, x, h => by
    rcases List.mem_append.mp h with h1 | h1
    · simp only [tagFile, List.mem_map] at h1
      obtain ⟨q, hq, rfl⟩ := h1
      obtain ⟨i, hi, hget, hpos⟩ := mem_withOffsets p.2 0 q.1 q.2 hq
      exact ⟨p.2, List.mem_cons_self p rest, i, hi, hget, by simpa using hpos⟩
    · obtain ⟨L, hL, hrest⟩ := mem_flatRecs rest x h1
      exact ⟨L, List.mem_cons_of_mem _ hL, hrest⟩

theorem fsRead_of_mem : ∀ (d : FsDir) (f : FName) (c : List Nat),
    d.Pairwise (fun a b => a.1 ≠ b.1) → (f, c) ∈ d → fsRead d f = some c
  | [], _, _, _, h => by cases h
  | (n', c') :: t, f, c, hp, h => by
    rcases List.mem_cons.mp h with h1 | h1
    · injection h1 with hn hc
      subst hn
      subst hc
      simp [fsRead]
    · have hne : n' ≠ f := by
        have h2 := (List.pairwise_cons.mp hp).1 (f, c) h1
        exact h2
      simp only [fsRead, if_neg hne]
      exact fsRead_of_mem t f c (List.pairwise_cons.mp hp).2 h1

theorem map_parseFileId_truncDir (files : List (Nat × List Entry)) (n : Nat)
    (recs : List Entry) (etail : Entry) (m : Nat) :
    (truncDir files n recs etail m).map (fun p => parseFileId p.1) =
      files.map (fun p => p.1) ++ [n] := by
  simp [truncDir, mkSegDir, List.map_map, parseFileId, Function.comp]

theorem truncDir_names_distinct (files : List (Nat × List Entry)) (n : Nat)
    (recs : List Entry) (etail : Entry) (m : Nat)
    (hsort : (files.map (fun p => p.1) ++ [n]).Sorted (· < ·)) :
    (truncDir files n recs etail m).Pairwise (fun a b => a.1 ≠ b.1) := by
  rw [← map_parseFileId_truncDir files n recs etail m] at hsort
  have h2 := List.pairwise_map.mp hsort
  exact h2.imp (fun hlt heq => absurd hlt (by rw [heq]; exact Nat.lt_irrefl _))

theorem sortDataFiles_truncDir (files : List (Nat × List Entry)) (n : Nat)
    (recs : List Entry) (etail : Entry) (m : Nat)
    (hsort : (files.map (fun p => p.1) ++ [n]).Sorted (· < ·)) :
    sortDataFiles (truncDir files n recs etail m) = truncDir files n recs etail m := by
  apply List.Sorted.insertionSort_eq
  rw [← map_parseFileId_truncDir files n recs etail m] at hsort
  have h2 := List.pairwise_map.mp hsort
  exact h2.imp (fun hlt => Nat.le_of_lt hlt)

theorem mem_truncDir_name (files : List (Nat × List Entry)) (n : Nat)
    (recs : List Entry) (etail : Entry) (m : Nat) :
    ∀ p ∈ truncDir files n recs etail m, ∃ i, p.1 = FName.wfName i := by
  intro p hp
  simp only [truncDir, List.mem_append, List.mem_singleton, mkSegDir, List.mem_map] at hp
  rcases hp with ⟨q, _, rfl⟩ | rfl
  · exact ⟨q.1, rfl⟩
  · exact ⟨n, rfl⟩

theorem filter_containsWF_truncDir (files : List (Nat × List Entry)) (n : Nat)
    (recs : List Entry) (etail : Entry) (m : Nat) :
    (truncDir files n recs etail m).filter (fun p => containsWF p.1) =
      truncDir files n recs etail m := by
  rw [List.filter_eq_self]
  intro p hp
  obtain ⟨i, hi⟩ := mem_truncDir_name files n recs etail m p hp
  show containsWF p.1 = true
  rw [hi]
  rfl

theorem fsRead_none_of_all : ∀ (d : FsDir) (f : FName), (∀ p ∈ d, p.1 ≠ f) →
    fsRead d f = none
  | [], _, _ => rfl
  | (n', c') :: t, f, h => by
    have hne : n' ≠ f := h (n', c') (List.mem_cons_self _ _)
    simp only [fsRead, if_neg hne]
    exact fsRead_none_of_all t f (fun p hp => h p (List.mem_cons_of_mem _ hp))

theorem fsRead_lock_truncDir (files : List (Nat × List Entry)) (n : Nat)
    (recs : List Entry) (etail : Entry) (m : Nat) :
    fsRead (truncDir files n recs etail m) FName.lockName = none := by
  apply fsRead_none_of_all
  intro p hp
  obtain ⟨i, hi⟩ := mem_truncDir_name files n recs etail m p hp
  rw [hi]
  simp

theorem filter_lock_truncDir (files : List (Nat × List Entry)) (n : Nat)
    (recs : List Entry) (etail : Entry) (m : Nat) :
    (truncDir files n recs etail m).filter (fun p => p.1 ≠ FName.lockName) =
      truncDir files n recs etail m := by
  rw [List.filter_eq_self]
  intro p hp
  obtain ⟨i, hi⟩ := mem_truncDir_name files n recs etail m p hp
  rw [hi]
  simp

theorem gwfi_truncDir (files : List (Nat × List Entry)) (n : Nat)
    (recs : List Entry) (etail : Entry) (m : Nat) :
    WorkingFile.get_working_file_id
      (fsWrite (truncDir files n recs etail m) FName.lockName []) = files.length + 1 := by
  unfold WorkingFile.get_working_file_id fsWrite
  rw [filter_lock_truncDir files n recs etail m]
  have h : List.filter (fun p => containsWF p.1)
      ((FName.lockName, ([] : List Nat)) :: truncDir files n recs etail m) =
      List.filter (fun p => containsWF p.1) (truncDir files n recs etail m) := by
    rw [List.filter_cons]
    simp [containsWF]
  rw [h, filter_containsWF_truncDir files n recs etail m]
  simp [truncDir, mkSegDir]

/-- C4: for every directory whose highest-id segment ends in a record
truncated mid-write, recovery treats the truncation as end-of-log
rather than an error: open succeeds, every fully-written record before
the truncation point is indexed, none of the truncated tail is indexed
(the key directory equals the one demanded by the spec for the records
with the tail dropped), and get returns the value of every key whose
latest live record was fully written before the crash. -/
theorem C4_truncated_tail (files : List (Nat × List Entry)) (n : Nat)
    (recs : List Entry) (etail : Entry) (m : Nat)
    (hwf : ∀ p ∈ files, ∀ x ∈ p.2, WFEntry x)
    (hwfr : ∀ x ∈ recs, WFEntry x)
    (hwft : WFEntry etail)
    (hm : m < (encodeEntry etail).length)
    (hsort : (files.map (fun p => p.1) ++ [n]).Sorted (· < ·))
    (hfresh : fsRead (truncDir files n recs etail m)
      (FName.wfName (files.length + 1)) = none) :
    ∃ s : Bitcask,
      Bitcask.openDb (truncDir files n recs etail m) false (some rwDefault) = .ok s ∧
      (∀ k, kdLookup k s.key_dir = dirSpecLookup k (flatRecs (cleanSegs files n recs))) ∧
      (∀ k f p e, findLastRec k (flatRecs (cleanSegs files n recs)) = some (f, p, e) →
        e.is_deleted = false → (Bitcask.get s k).2 = .ok e.value) := by
  have hwf2 : ∀ p ∈ segFiles files, ∀ x ∈ p.2, WFEntry x := by
    intro p hp x hx
    simp only [segFiles, List.mem_map] at hp
    obtain ⟨q, hq, rfl⟩ := hp
    exact hwf q hq x hx
  have hbuild : build_key_dir_map_and_files_pool (truncDir files n recs etail m) =
      .ok ((flatRecs (cleanSegs files n recs)).foldl replayTagged [],
        (cleanSegs files n recs).map (fun p => p.1)) := by
    unfold build_key_dir_map_and_files_pool
    rw [filter_containsWF_truncDir files n recs etail m,
      sortDataFiles_truncDir files n recs etail m hsort]
    conv_lhs => rw [truncDir_eq_map files n recs etail m]
    exact buildLoop_sem_last (segFiles files) (FName.wfName n) recs
      ((encodeEntry etail).take m) [] [] hwf2 hwfr (decodeEntry_trunc etail hwft m hm)
  have hlock : fsRead (truncDir files n recs etail m) FName.lockName = none :=
    fsRead_lock_truncDir files n recs etail m
  have hgw := gwfi_truncDir files n recs etail m
  have hfresh1 : fsRead (fsWrite (truncDir files n recs etail m) FName.lockName [])
      (FName.wfName (files.length + 1)) = none := by
    rw [fsRead_fsWrite_ne _ _ _ _ (by simp)]
    exact hfresh
  refine ⟨⟨fsWrite (fsWrite (truncDir files n recs etail m) FName.lockName [])
      (FName.wfName (files.length + 1)) [],
    some ⟨FName.wfName (files.length + 1), 0⟩, some (files.length + 1),
    (flatRecs (cleanSegs files n recs)).foldl replayTagged [],
    rwDefault, (cleanSegs files n recs).map (fun p => p.1)⟩, ?_, ?_, ?_⟩
  · unfold Bitcask.openDb
    rw [hbuild]
    simp only [Option.getD_some]
    rw [show rwDefault.read_write = true from rfl]
    simp only [if_true]
    unfold try_acquire_write_lock
    rw [hlock]
    simp only [Bool.false_eq_true, if_false]
    rw [hgw]
    unfold WorkingFile.openNew
    rw [hfresh1]
  · intro k
    show kdLookup k ((flatRecs (cleanSegs files n recs)).foldl replayTagged []) = _
    rw [foldl_replay_lookup]
    unfold dirSpecLookup
    cases findLastRec k (flatRecs (cleanSegs files n recs)) <;> rfl
  · intro k f p e hfind hlive
    obtain ⟨L, hLmem, i, hi, hget, hp⟩ :=
      mem_flatRecs _ _ (findLastRec_mem _ k _ hfind)
    dsimp only at hLmem hget hp
    have hLwf : ∀ x ∈ L, WFEntry x := by
      rcases List.mem_append.mp hLmem with h1 | h1
      · exact hwf2 (f, L) h1
      · have h2 := List.mem_singleton.mp h1
        injection h2 with _ hL
        subst hL
        exact hwfr
    have hdist := truncDir_names_distinct files n recs etail m hsort
    have hbytes : ∃ tb, fsRead (truncDir files n recs etail m) f =
        some (encodeEntries L ++ tb) := by
      rcases List.mem_append.mp hLmem with h1 | h1
      · refine ⟨[], ?_⟩
        rw [List.append_nil]
        apply fsRead_of_mem _ _ _ hdist
        apply List.mem_append_left
        rw [mkSegDir_eq_map]
        exact List.mem_map.mpr ⟨(f, L), h1, rfl⟩
      · have h2 := List.mem_singleton.mp h1
        injection h2 with hf hL
        subst hf
        subst hL
        refine ⟨(encodeEntry etail).take m, ?_⟩
        apply fsRead_of_mem _ _ _ hdist
        apply List.mem_append_right
        exact List.mem_singleton.mpr rfl
    have hfne : f ≠ FName.wfName (files.length + 1) := by
      intro heq
      obtain ⟨tb, hread⟩ := hbytes
      rw [heq, hfresh] at hread
      cases hread
    have hflock : f ≠ FName.lockName := by
      rcases List.mem_append.mp hLmem with h1 | h1
      · simp only [segFiles, List.mem_map] at h1
        obtain ⟨q, _, hq⟩ := h1
        injection hq with hq1 _
        rw [← hq1]
        simp
      · have h2 := List.mem_singleton.mp h1
        injection h2 with hf _
        rw [hf]
        simp
    obtain ⟨tb, hread⟩ := hbytes
    have hkd : kdLookup k ((flatRecs (cleanSegs files n recs)).foldl replayTagged []) =
        some ⟨f, p, e.timestamp⟩ := by
      rw [foldl_replay_lookup]
      simp [hfind, hlive]
    have hreadS : fsRead (fsWrite (fsWrite (truncDir files n recs etail m)
        FName.lockName []) (FName.wfName (files.length + 1)) []) f =
        some (encodeEntries L ++ tb) := by
      rw [fsRead_fsWrite_ne _ _ _ _ (Ne.symm hfne),
        fsRead_fsWrite_ne _ _ _ _ (Ne.symm hflock)]
      exact hread
    have hoff : offsetAt L i ≤ (encodeEntries L).length := by
      show (encodeEntries (L.take i)).length ≤ _
      conv_rhs => rw [← List.take_append_drop i L]
      rw [encodeEntries_append, List.length_append]
      exact Nat.le_add_right _ _
    have hdec : decodeEntry ((encodeEntries L ++ tb).drop p) =
        .okr e (encodeEntries (L.drop (i + 1)) ++ tb) := by
      rw [hp, List.drop_append_of_le_length hoff, drop_offsetAt L i hi, hget,
        List.append_assoc]
      exact decodeEntry_encode e _ (hLwf e (hget ▸ List.get_mem L i hi))
    have hpool : f ∈ (cleanSegs files n recs).map (fun p2 => p2.1) :=
      List.mem_map.mpr ⟨(f, L), hLmem, rfl⟩
    unfold Bitcask.get
    rw [hkd]
    unfold Bitcask.get_file_containing_key
    simp only [if_neg hfne, if_pos hpool]
    rw [hreadS]
    simp only [Option.getD_some]
    rw [hdec]

set_option maxRecDepth 10000 in
/-- witness for C4: one sealed segment plus a segment whose last record
keeps only its first three bytes; open succeeds and the surviving
records are served. -/
theorem C4_truncated_tail_witness :
    ((∀ p : Nat × List Entry, p ∈ [(0, [eW1])] → ∀ x ∈ p.2, WFEntry x) ∧
      (∀ x ∈ [eW2], WFEntry x) ∧ WFEntry eW1 ∧ 3 < (encodeEntry eW1).length ∧
      (([(0, [eW1])] : List (Nat × List Entry)).map Prod.fst ++ [1]).Sorted (· < ·) ∧
      fsRead (truncDir [(0, [eW1])] 1 [eW2] eW1 3) (FName.wfName 2) = none) ∧
    (∃ s : Bitcask,
      Bitcask.openDb (truncDir [(0, [eW1])] 1 [eW2] eW1 3) false (some rwDefault) =
        .ok s ∧
      (∀ k, kdLookup k s.key_dir =
        dirSpecLookup k (flatRecs (cleanSegs [(0, [eW1])] 1 [eW2]))) ∧
      (∀ k f p e,
        findLastRec k (flatRecs (cleanSegs [(0, [eW1])] 1 [eW2])) = some (f, p, e) →
        e.is_deleted = false → (Bitcask.get s k).2 = .ok e.value)) :=
  ⟨⟨by decide, by decide, by decide, by decide, by decide, rfl⟩,
    C4_truncated_tail [(0, [eW1])] 1 [eW2] eW1 3 (by decide) (by decide) (by decide)
      (by decide) (by decide) rfl⟩

/-! ## C10: delete preserves the invariant, workloads -/

theorem StoreInv_delete (s : Bitcask) (k : List Nat) (hinv : StoreInv s) :
    StoreInv (Bitcask.delete s k).1 := by
  unfold Bitcask.delete
  rcases hde : kdLookup k s.key_dir with _ | de
  · exact hinv
  · obtain ⟨hkd1, hdir1, hwf1, hopt1⟩ := gfck_fst s de.file_name
    rcases hg : Bitcask.get_file_containing_key s de.file_name with ⟨s1, og⟩
    rw [hg] at hkd1 hdir1 hwf1 hopt1
    dsimp only at hkd1 hdir1 hwf1 hopt1
    have hinv1 : StoreInv s1 := StoreInv_of_eq s s1 hdir1 hwf1 hkd1 hopt1 hinv
    dsimp only
    rw [hg]
    cases og with
    | err e => exact hinv1
    | panicked msg => exact hinv1
    | ok name =>
      have hname : name = de.file_name :=
        gfck_ok_name s de.file_name name (by rw [hg])
      subst hname
      obtain ⟨L, p, hp, hcL, hwfL, hpos, hkey, hlive, hcrc⟩ := hinv.2.2.2 k de hde
      have hcontent : fsRead s1.dir de.file_name = some (encodeEntries L) := by
        rw [hdir1]
        exact hcL
      dsimp only
      rw [hcontent]
      simp only [Option.getD_some]
      rw [hpos, drop_offsetAt L p hp,
        decodeEntry_encode _ _ (hwfL _ (L.get_mem _ _))]
      dsimp only
      have hlen : (encodeEntry (Entry.mark_deleted (L.get ⟨p, hp⟩))).length =
          (encodeEntry (L.get ⟨p, hp⟩)).length :=
        length_encodeEntry_mark_deleted _
      rw [spliceAt_set L p hp _ hlen]
      set e2 := Entry.mark_deleted (L.get ⟨p, hp⟩) with he2
      have hwfset : ∀ x ∈ L.set p e2, WFEntry x := by
        intro x hx
        rcases List.mem_or_eq_of_mem_set hx with hx1 | hx1
        · exact hwfL x hx1
        · rw [hx1, he2]
          exact WFEntry_mark_deleted _ (hwfL _ (L.get_mem _ _))
      refine ⟨?_, ?_, ?_, ?_⟩
      · exact fun hrw => hinv1.1 hrw
      · intro w hwq
        obtain ⟨c, hc, hsz⟩ := hinv1.2.1 w hwq
        by_cases hwn : w.name = de.file_name
        · refine ⟨encodeEntries (L.set p e2), ?_, ?_⟩
          · show fsRead (fsWrite s1.dir de.file_name (encodeEntries (L.set p e2)))
              w.name = _
            rw [hwn, fsRead_fsWrite_self]
          · rw [hwn] at hc
            rw [hc] at hcontent
            injection hcontent with hceq
            rw [hsz, hceq, length_encodeEntries_set L p e2 (fun _ => hlen)]
        · refine ⟨c, ?_, hsz⟩
          show fsRead (fsWrite s1.dir de.file_name (encodeEntries (L.set p e2)))
            w.name = _
          rw [fsRead_fsWrite_ne _ _ _ _ (Ne.symm hwn)]
          exact hc
      · intro nm c2 hc2
        dsimp only at hc2
        by_cases hnm : nm = de.file_name
        · rw [hnm, fsRead_fsWrite_self] at hc2
          injection hc2 with hc2e
          exact ⟨L.set p e2, hc2e.symm, hwfset⟩
        · rw [fsRead_fsWrite_ne _ _ _ _ (Ne.symm hnm)] at hc2
          exact hinv1.2.2.1 nm c2 hc2
      · intro k' de' hde'
        dsimp only at hde'
        have hk'k : k' ≠ k := by
          intro heq
          rw [heq, kdLookup_kdRemove_self] at hde'
          cases hde'
        have hde'' : kdLookup k' s1.key_dir = some de' := by
          rw [← kdLookup_kdRemove_ne k' k s1.key_dir (Ne.symm hk'k)]
          exact hde'
        obtain ⟨L', p', hp', hcL', hwfL', hpos', hkey', hlive', hcrc'⟩ :=
          hinv1.2.2.2 k' de' hde''
        by_cases hnm : de'.file_name = de.file_name
        · rw [hnm, hcontent] at hcL'
          injection hcL' with hLL
          have hLeq : L = L' := encodeEntries_inj L L' hwfL hwfL' hLL
          subst hLeq
          have hp'p : p' ≠ p := by
            intro heq
            subst heq
            exact hk'k (hkey'.symm.trans hkey)
          have hset : p' < (L.set p e2).length := by
            rw [List.length_set]
            exact hp'
          have hgetp : (L.set p e2).get ⟨p', hset⟩ = L.get ⟨p', hp'⟩ := by
            show (L.set p e2)[p'] = L[p']
            exact List.getElem_set_ne (Ne.symm hp'p) _
          refine ⟨L.set p e2, p', hset, ?_, hwfset, ?_, ?_, ?_, ?_⟩
          · show fsRead (fsWrite s1.dir de.file_name (encodeEntries (L.set p e2)))
              de'.file_name = _
            rw [hnm, fsRead_fsWrite_self]
          · rw [hpos', offsetAt_set L p p' e2 (fun _ => hlen)]
          · rw [hgetp]
            exact hkey'
          · rw [hgetp]
            exact hlive'
          · rw [hgetp]
            exact hcrc'
        · refine ⟨L', p', hp', ?_, hwfL', hpos', hkey', hlive', hcrc'⟩
          show fsRead (fsWrite s1.dir de.file_name (encodeEntries (L.set p e2)))
            de'.file_name = _
          rw [fsRead_fsWrite_ne _ _ _ _ (Ne.symm hnm)]
          exact hcL'

/-- one client operation of a put/delete workload. -/
inductive Op where
  | putK : List Nat → List Nat → Nat → Op
  | delK : List Nat → Op

/-- key and value fit in `u64` lengths (true of every real `Vec<u8>`). -/
def OpWF : Op → Prop
  | .putK k v _ => k.length < 2 ^ 64 ∧ v.length < 2 ^ 64
  | .delK _ => True

instance (op : Op) : Decidable (OpWF op) := by
  cases op with
  | putK k v t => exact inferInstanceAs (Decidable (_ ∧ _))
  | delK k => exact inferInstanceAs (Decidable True)

/-- apply one operation, keeping whatever state the engine leaves
behind whether or not the call succeeds. -/
def applyOp (s : Bitcask) : Op → Bitcask
  | .putK k v t => (Bitcask.put s k v t).1
  | .delK k => (Bitcask.delete s k).1

/-- run a workload left to right. -/
def runOps (s : Bitcask) (ops : List Op) : Bitcask := ops.foldl applyOp s

theorem StoreInv_runOps : ∀ (ops : List Op) (s : Bitcask),
    (∀ op ∈ ops, OpWF op) → StoreInv s → StoreInv (runOps s ops)
  | [], _, _, hinv => hinv
  | op :: rest, s, hops, hinv => by
    have h1 : StoreInv (applyOp s op) := by
      cases op with
      | putK k v t =>
        have hw := hops _ (List.mem_cons_self _ _)
        exact StoreInv_put s k v t hw.1 hw.2 hinv
      | delK k => exact StoreInv_delete s k hinv
    exact StoreInv_runOps rest (applyOp s op) (fun o ho => hops o (List.mem_cons_of_mem _ ho)) h1

/-- C10: every `Entry` written by `put` has
`checksum = CRC32(timestamp_le_bytes || key || value)`; the checksum
excludes the `deleted` flag, so `delete`'s in-place rewrite — which
flips only that flag and yields an encoding of the same byte length —
leaves a record whose checksum still verifies; and after any sequence
of `put`/`delete` operations from a fresh read-write open, every record
reachable from the Key Directory sits at a record boundary of its file
and satisfies the checksum invariant. -/
theorem C10_checksum_invariant (ops : List Op) (hops : ∀ op ∈ ops, OpWF op) :
    (∀ k v t, (Entry.new k v t).crc_checksum =
      crc32Of (natToLeBytes 8 (Entry.new k v t).timestamp ++ k ++ v)) ∧
    (∀ e, (encodeEntry (Entry.mark_deleted e)).length = (encodeEntry e).length ∧
      (checksumOk e → checksumOk (Entry.mark_deleted e))) ∧
    (∀ k de, kdLookup k (runOps freshStore ops).key_dir = some de →
      ∃ L p, ∃ hp : p < L.length,
        fsRead (runOps freshStore ops).dir de.file_name = some (encodeEntries L) ∧
        de.entry_pos = offsetAt L p ∧
        (L.get ⟨p, hp⟩).key = k ∧
        checksumOk (L.get ⟨p, hp⟩)) := by
  refine ⟨?_, ?_, ?_⟩
  · intro k v t
    show Entry.generate_checksum (t % 2 ^ 64) k v = _
    unfold Entry.generate_checksum crc32Of crcUpdate
    rw [List.foldl_append, List.foldl_append]
    rfl
  · intro e
    exact ⟨length_encodeEntry_mark_deleted e, checksumOk_mark_deleted e⟩
  · intro k de hde
    have hinv : StoreInv (runOps freshStore ops) :=
      StoreInv_runOps ops freshStore hops StoreInv_freshStore
    obtain ⟨L, p, hp, hcL, _, hpos, hkey, _, hcrc⟩ := hinv.2.2.2 k de hde
    exact ⟨L, p, hp, hcL, hpos, hkey, hcrc⟩

/-- witness for C10 at the workload put [1] ↦ [2] then delete [1]. -/
theorem C10_checksum_invariant_witness :
    (∀ op ∈ [Op.putK [1] [2] 5, Op.delK [1]], OpWF op) ∧
    ((∀ k v t, (Entry.new k v t).crc_checksum =
      crc32Of (natToLeBytes 8 (Entry.new k v t).timestamp ++ k ++ v)) ∧
    (∀ e, (encodeEntry (Entry.mark_deleted e)).length = (encodeEntry e).length ∧
      (checksumOk e → checksumOk (Entry.mark_deleted e))) ∧
    (∀ k de,
      kdLookup k (runOps freshStore [Op.putK [1] [2] 5, Op.delK [1]]).key_dir = some de →
      ∃ L p, ∃ hp : p < L.length,
        fsRead (runOps freshStore [Op.putK [1] [2] 5, Op.delK [1]]).dir de.file_name =
          some (encodeEntries L) ∧
        de.entry_pos = offsetAt L p ∧
        (L.get ⟨p, hp⟩).key = k ∧
        checksumOk (L.get ⟨p, hp⟩))) :=
  ⟨by decide, C10_checksum_invariant [Op.putK [1] [2] 5, Op.delK [1]] (by decide)⟩
